import Mathlib

/-!
# The on-disk context store (`internal/clicontext/storage.go`)

A shallow embedding of the `Storage` type of Waypoint's CLI context store and
of the part of the operating system it talks to.

* Go strings and byte slices are lists of characters (`Str`).  The only bytes
  the code inspects are the ASCII characters `_`, `.` and `/`, which never
  occur inside a multi-byte UTF-8 sequence, so comparing the first character
  or searching for the last dot gives the same answer on characters as on
  bytes.
* The file system is the content of one directory, the store's base directory:
  an ordered list of entries, each a regular file or a symbolic link.  System
  calls take path strings, exactly as in the source, and are interpreted
  against that directory.
* A Go `error` result is an `Option Error` (`none` is `nil`); a `(T, error)`
  result is an `Except Error T`; a call that changes the disk also returns the
  new file system, on the error paths too.
-/

namespace Clicontext

/-- Go strings and byte slices. -/
abbrev Str := List Char

/-- Errors, as far as the code tells them apart. -/
inductive Error
  /-- ENOENT, the errors for which `os.IsNotExist` answers true. -/
  | notExist
  /-- EEXIST. -/
  | exist
  /-- ELOOP, too many levels of symbolic links. -/
  | loop
  /-- EINVAL, for `Readlink` on something that is no link. -/
  | invalid
  /-- The platform refuses to create symbolic links for this process. -/
  | notPermitted
  /-- The error `fmt.Errorf("context %q does not exist", from)` of `Rename`. -/
  | contextDoesNotExist (name : Str)
  /-- A failure inside the codec (serialising or decoding a `Config`). -/
  | codec
  /-- The run-time panic of indexing an empty string. -/
  | indexOutOfRange
  deriving DecidableEq, Repr

deriving instance DecidableEq for Except

/-- Go's `os.IsNotExist(err)`; `err` may be `nil`. -/
def osIsNotExist : Option Error → Bool
  | some .notExist => true
  | _ => false

/-! ## Paths (`path/filepath`, Unix flavour) -/

/-- The path separator. -/
def separator : Char := '/'

/-- The canonical extension of a context file. -/
def hclExt : Str := ".hcl".toList

/-- The reserved entry name of the default indicator. -/
def defaultEntry : Str := "_default.hcl".toList

/-- Strip trailing separators. -/
def trimTrailingSep (p : Str) : Str :=
  (p.reverse.dropWhile (fun c => c = separator)).reverse

/-- The part of `p` after its last separator (all of `p` when it has none). -/
def lastElem (p : Str) : Str :=
  (p.reverse.takeWhile (fun c => c ≠ separator)).reverse

/-- The part of `p` up to and including its last separator. -/
def uptoLastSep (p : Str) : Str :=
  (p.reverse.dropWhile (fun c => c ≠ separator)).reverse

/-- Go's `filepath.Base`: the last element of the path, after removing
trailing separators; `"."` for the empty path and `"/"` for a path made of
separators only. -/
def filepathBase (path : Str) : Str :=
  if path = [] then ['.']
  else
    let b := lastElem (trimTrailingSep path)
    if b = [] then [separator] else b

/-- The text a directory path contributes in front of an element joined to
it: nothing for the current directory, `"/"` for the root, and the path with
one separator otherwise. -/
def dirPrefix (d : Str) : Str :=
  if d = [] then []
  else
    let t := trimTrailingSep d
    if t = [] then [separator]
    else if t = ['.'] then []
    else t ++ [separator]

/-- Go's `filepath.Join(dir, elem)` for a directory path `dir` that is
already clean up to trailing separators and an element that needs no
cleaning (no `.` or `..` components), which is how the store calls it. -/
def filepathJoin (dir elem : Str) : Str :=
  dirPrefix dir ++ elem

/-- Go's `filepath.Dir`: everything up to the last separator, cleaned (for a
path whose directory part needs no cleaning beyond the trailing separator). -/
def filepathDir (path : Str) : Str :=
  let d := uptoLastSep path
  if d = [] then ['.']
  else
    let t := trimTrailingSep d
    if t = [] then [separator] else t

/-- Go's `strings.HasSuffix`. -/
def hasSuffix (s suffix : Str) : Bool :=
  suffix.reverse.isPrefixOf s.reverse

/-- Remove `pre` from the front of `s`, if it is there. -/
def stripPrefix : Str → Str → Option Str
  | [], s => some s
  | _ :: _, [] => none
  | c :: cs, d :: ds => if c = d then stripPrefix cs ds else none

/-- The names a directory entry can have: non-empty, without separator, and
neither `.` nor `..`. -/
def validEntry (e : Str) : Prop :=
  e ≠ [] ∧ separator ∉ e ∧ e ≠ ['.'] ∧ e ≠ ['.', '.']

instance (e : Str) : Decidable (validEntry e) := by
  unfold validEntry; infer_instance

/-! ### Paths taken as written

`filepath.Join` cleans the path it builds, so the files of the store live in
the directory the cleaned `dir` denotes.  `os.Open(dir)` is handed `dir` as
written and walks it component by component. -/

/-- The components of a path: the pieces between its separators. -/
def splitSep : Str → List Str
  | [] => [[]]
  | c :: cs =>
    if c = separator then [] :: splitSep cs
    else
      match splitSep cs with
      | [] => [[c]]
      | h :: t => (c :: h) :: t

/-- The component `..`. -/
def dotdot : Str := ['.', '.']

/-- A component that names a directory: not empty, not `.` and not `..`. -/
def isName (comp : Str) : Bool :=
  decide (comp ≠ [] ∧ comp ≠ ['.'] ∧ comp ≠ dotdot)

/-- One component further along a path.  `cur` is the directory reached so
far, as the stack of components `filepath.Clean` keeps, innermost first: an
empty component and `.` stay, a name goes down, `..` goes up (it cancels the
name above it, stays at the root of a rooted path, and is kept at the front
of a relative one). -/
def stepComponent (rooted : Bool) (cur : List Str) (comp : Str) : List Str :=
  if comp = [] ∨ comp = ['.'] then cur
  else if comp = dotdot then
    match cur with
    | [] => if rooted then [] else [dotdot]
    | top :: rest => if top = dotdot then dotdot :: cur else rest
  else comp :: cur

/-- The directory a path denotes once cleaned, as a stack of components. -/
def cleanedDir (rooted : Bool) (comps : List Str) : List Str :=
  comps.foldl (stepComponent rooted) []

/-- Walking a path as the kernel does, from `cur` towards `target`: a
directory entered by name has to exist, and the directories that exist are
the target directory and those above it; the walk has to end at `target`. -/
def walkReaches (rooted : Bool) (target : List Str) : List Str → List Str → Bool
  | cur, [] => decide (cur = target)
  | cur, comp :: comps =>
    if isName comp = true ∧ (comp :: cur).isSuffixOf target = false then false
    else walkReaches rooted target (stepComponent rooted cur comp) comps

/-- Whether opening `dir` as written reaches the directory the cleaned `dir`
denotes.  The empty path names nothing (`filepath.Join` turns it into the
working directory, `os.Open("")` fails), and a path through a directory that
does not exist fails even if a later `..` leaves that directory again. -/
def opensAsWritten (dir : Str) : Bool :=
  decide (dir ≠ []) &&
    walkReaches (decide (dir.head? = some separator))
      (cleanedDir (decide (dir.head? = some separator)) (splitSep dir)) [] (splitSep dir)

/-- Whether the rest of a path leaves, with `..`, a directory entered by
name; `seen` says whether a name came before. -/
def walksBackFrom : Bool → List Str → Bool
  | _, [] => false
  | seen, comp :: comps =>
    if comp = dotdot then (if seen = true then true else walksBackFrom false comps)
    else if isName comp = true then walksBackFrom true comps
    else walksBackFrom seen comps

/-- A directory path that is not empty and never leaves with `..` a directory
it entered by name.  Every non-empty clean path is of this kind, since
`filepath.Clean` leaves `..` only at the front of a relative path; so are `.`,
`/ctx/` and `./ctx`, while `missing/..` is not. -/
def plainDir (d : Str) : Prop :=
  d ≠ [] ∧ walksBackFrom false (splitSep d) = false

instance (d : Str) : Decidable (plainDir d) := by
  unfold plainDir; infer_instance

/-! ## The file system: one directory -/

/-- What a directory entry is. -/
inductive Node
  /-- A regular file and its contents. -/
  | file (data : Str)
  /-- A symbolic link and its target path, as stored. -/
  | link (target : Str)
  deriving DecidableEq, Repr

/-- How the platform treats `os.Symlink`. -/
inductive SymlinkSupport
  /-- The link is created and no error is reported. -/
  | works
  /-- No link is created and an error is reported. -/
  | unsupported
  /-- The link is created although an error is reported (the Windows
  behaviour `createSymlink` works around). -/
  | spuriousError
  deriving DecidableEq, Repr

/-- The base directory as the operating system sees it.  `entries` is in
directory order, the order `Readdirnames` reports.  A directory that does not
exist has no entries. -/
structure FS where
  /-- The path of the directory. -/
  root : Str
  /-- Whether the directory exists. -/
  dirExists : Bool
  /-- The platform's treatment of symbolic link creation. -/
  symlinks : SymlinkSupport
  /-- The entries, by name. -/
  entries : List (Str × Node)
  deriving DecidableEq, Repr

/-- The node of the entry called `k`. -/
def lookupEntry (k : Str) : List (Str × Node) → Option Node
  | [] => none
  | (k', v) :: es => if k' = k then some v else lookupEntry k es

/-- Remove the entry called `k`. -/
def eraseEntry (k : Str) (es : List (Str × Node)) : List (Str × Node) :=
  es.filter (fun p => decide (p.1 ≠ k))

/-- Replace the node of entry `k` in place, or add the entry at the end. -/
def putEntry (k : Str) (v : Node) : List (Str × Node) → List (Str × Node)
  | [] => [(k, v)]
  | (k', v') :: es => if k' = k then (k, v) :: es else (k', v') :: putEntry k v es

/-- The entry `p` after the entry called `old` got the name `new`. -/
def moveEntry (old new : Str) (p : Str × Node) : Str × Node :=
  if p.1 = old then (new, p.2) else p

/-- Give the entry called `old` the name `new`, replacing what was there. -/
def renameEntry (old new : Str) (es : List (Str × Node)) : List (Str × Node) :=
  (eraseEntry new es).map (moveEntry old new)

/-- The entry of the base directory a path handed to a system call denotes,
if it denotes one: the path must be the directory's prefix followed by an
entry name. -/
def entryOf (root path : Str) : Option Str :=
  match stripPrefix (dirPrefix root) path with
  | none => none
  | some e => if validEntry e then some e else none

/-- The entry of the base directory a link target denotes.  A relative target
is resolved against the directory holding the link, which is the base
directory; an absolute one only makes sense against an absolute base
directory.  The directory has no sub-directories, so a relative target
with a separator denotes nothing in it. -/
def targetEntry (root t : Str) : Option Str :=
  if t.head? = some separator then
    if root.head? = some separator then entryOf root t else none
  else if validEntry t then some t else none

/-- Where following links from an entry ends. -/
inductive Resolved
  /-- At the regular file `e`. -/
  | file (e : Str) (data : Str)
  /-- At the name `e` in the base directory, where nothing is. -/
  | absent (e : Str)
  /-- At a path outside the base directory. -/
  | outside
  /-- Nowhere: the hop limit was reached. -/
  | loop
  deriving DecidableEq, Repr

/-- Follow symbolic links starting at entry `e`, at most `hops` times. -/
def resolve (fs : FS) : Nat → Str → Resolved
  | 0, _ => .loop
  | hops + 1, e =>
    match lookupEntry e fs.entries with
    | none => .absent e
    | some (.file d) => .file e d
    | some (.link t) =>
      match targetEntry fs.root t with
      | none => .outside
      | some e' => resolve fs hops e'

/-- The number of links a path lookup follows before giving up (Linux). -/
def maxHops : Nat := 40

/-! ## System calls

Nothing exists outside the base directory and nothing can be created there:
a path or link target that does not denote an entry of the base directory
is reported as not existing. -/

/-- The result of `os.Lstat`/`os.Stat`, as far as the code looks at it. -/
structure FileInfo where
  /-- Is `Mode()&os.ModeSymlink != 0`. -/
  isSymlink : Bool
  deriving DecidableEq, Repr

/-- Go's `os.Lstat`: does not follow a link at the path itself. -/
def osLstat (fs : FS) (path : Str) : Except Error FileInfo :=
  match entryOf fs.root path with
  | none => .error .notExist
  | some e =>
    match lookupEntry e fs.entries with
    | none => .error .notExist
    | some (.file _) => .ok ⟨false⟩
    | some (.link _) => .ok ⟨true⟩

/-- Go's `os.Stat`: follows links. -/
def osStat (fs : FS) (path : Str) : Except Error FileInfo :=
  match entryOf fs.root path with
  | none => .error .notExist
  | some e =>
    match resolve fs maxHops e with
    | .file _ _ => .ok ⟨false⟩
    | .absent _ => .error .notExist
    | .outside => .error .notExist
    | .loop => .error .loop

/-- Go's `os.Readlink`. -/
def osReadlink (fs : FS) (path : Str) : Except Error Str :=
  match entryOf fs.root path with
  | none => .error .notExist
  | some e =>
    match lookupEntry e fs.entries with
    | none => .error .notExist
    | some (.file _) => .error .invalid
    | some (.link t) => .ok t

/-- Go's `ioutil.ReadFile`: follows links. -/
def ioutilReadFile (fs : FS) (path : Str) : Except Error Str :=
  match entryOf fs.root path with
  | none => .error .notExist
  | some e =>
    match resolve fs maxHops e with
    | .file _ d => .ok d
    | .absent _ => .error .notExist
    | .outside => .error .notExist
    | .loop => .error .loop

/-- Opening a path with `O_CREATE|O_TRUNC`, the common part of `os.Create`
and `ioutil.WriteFile`: links are followed; the file the path leads to is
emptied, or created where the path (or the last link) points but nothing is.
Returns the entry that was opened. -/
def openTrunc (fs : FS) (path : Str) : Except Error Str × FS :=
  match entryOf fs.root path with
  | none => (.error .notExist, fs)
  | some e =>
    if fs.dirExists = false then (.error .notExist, fs)
    else
      match resolve fs maxHops e with
      | .file e' _ => (.ok e', { fs with entries := putEntry e' (.file []) fs.entries })
      | .absent e' => (.ok e', { fs with entries := putEntry e' (.file []) fs.entries })
      | .outside => (.error .notExist, fs)
      | .loop => (.error .loop, fs)

/-- Go's `os.Create`; the file handle is the entry that was opened. -/
def osCreate (fs : FS) (path : Str) : Except Error Str × FS :=
  openTrunc fs path

/-- Writing `data` to the (freshly truncated) file behind a handle. -/
def fileWrite (fs : FS) (handle : Str) (data : Str) : FS :=
  { fs with entries := putEntry handle (.file data) fs.entries }

/-- Go's `ioutil.WriteFile`. -/
def ioutilWriteFile (fs : FS) (path : Str) (data : Str) : Option Error × FS :=
  match openTrunc fs path with
  | (.error e, fs1) => (some e, fs1)
  | (.ok h, fs1) => (none, fileWrite fs1 h data)

/-- Go's `os.Remove` on a file or link: removes the entry itself. -/
def osRemove (fs : FS) (path : Str) : Option Error × FS :=
  match entryOf fs.root path with
  | none => (some .notExist, fs)
  | some e =>
    match lookupEntry e fs.entries with
    | none => (some .notExist, fs)
    | some _ => (none, { fs with entries := eraseEntry e fs.entries })

/-- Go's `os.Rename`: moves the entry itself, replacing the destination;
renaming an entry to itself does nothing. -/
def osRename (fs : FS) (oldpath newpath : Str) : Option Error × FS :=
  match entryOf fs.root oldpath, entryOf fs.root newpath with
  | some eo, some en =>
    match lookupEntry eo fs.entries with
    | none => (some .notExist, fs)
    | some _ =>
      if eo = en then (none, fs)
      else (none, { fs with entries := renameEntry eo en fs.entries })
  | _, _ => (some .notExist, fs)

/-- Go's `os.Symlink(target, linkpath)`. -/
def osSymlink (fs : FS) (target linkpath : Str) : Option Error × FS :=
  match entryOf fs.root linkpath with
  | none => (some .notExist, fs)
  | some e =>
    if fs.dirExists = false then (some .notExist, fs)
    else
      match lookupEntry e fs.entries with
      | some _ => (some .exist, fs)
      | none =>
        match fs.symlinks with
        | .works => (none, { fs with entries := putEntry e (.link target) fs.entries })
        | .unsupported => (some .notPermitted, fs)
        | .spuriousError =>
          (some .notPermitted, { fs with entries := putEntry e (.link target) fs.entries })

/-- Go's `os.MkdirAll`: creates the directory if it is the base directory;
any other directory is outside this file system. -/
def osMkdirAll (fs : FS) (dir : Str) : Option Error × FS :=
  if dirPrefix dir = dirPrefix fs.root then (none, { fs with dirExists := true })
  else (none, fs)

/-- Go's `os.Open(dir)` followed by `Readdirnames(-1)`.  The path is taken
as written: it has to lead to the base directory without passing through a
directory that does not exist, and the base directory has to exist. -/
def osReaddirnames (fs : FS) (dir : Str) : Except Error (List Str) :=
  if opensAsWritten dir = true ∧ dirPrefix dir = dirPrefix fs.root ∧ fs.dirExists = true then
    .ok (fs.entries.map Prod.fst)
  else .error .notExist

/-! ## The codec -/

/-- Modelled from the spec: the Codec collaborator, `Config.WriteTo` and
`LoadPath` of `config.go`, which is not among the sources.  It "serializes a
Config value to a byte stream and deserializes from one"; either direction may
fail. -/
structure Codec (Config : Type) where
  /-- The bytes `WriteTo` writes, if serialising succeeds. -/
  encode : Config → Option Str
  /-- The value `LoadPath` decodes from the bytes of a file, if decoding succeeds. -/
  decode : Str → Option Config

/-- Modelled from the spec: `LoadPath`, the codec's read-from-path operation;
it "fails with a not found error when the file is absent; other I/O or decode
failures propagate". -/
def LoadPath {Config : Type} (codec : Codec Config) (fs : FS) (path : Str) :
    Except Error Config :=
  match ioutilReadFile fs path with
  | .error e => .error e
  | .ok data =>
    match codec.decode data with
    | none => .error .codec
    | some c => .ok c

/-- Modelled from the spec: `Config.WriteTo`, the codec's write-into-sink
operation, on an open file. -/
def writeTo {Config : Type} (codec : Codec Config) (c : Config) (handle : Str) (fs : FS) :
    Option Error × FS :=
  match codec.encode c with
  | none => (some .codec, fs)
  | some data => (none, fileWrite fs handle data)

/-! ## `Storage` -/

/-- The Go struct `Storage`. -/
structure Storage where
  /-- The base directory. -/
  dir : Str
  /-- Set by `WithNoSymlink`. -/
  noSymlink : Bool
  deriving DecidableEq, Repr

/-- The options of `NewStorage`. -/
def Option_ := Storage → Option Error × Storage

/-- Go's `WithDir`. -/
def WithDir (d : Str) : Option_ := fun m => (none, { m with dir := d })

/-- Go's `WithNoSymlink`. -/
def WithNoSymlink : Option_ := fun m => (none, { m with noSymlink := true })

/-- Go's `NewStorage`: apply the options in order to the zero value. -/
def NewStorage (opts : List Option_) : Except Error Storage :=
  let rec go : List Option_ → Storage → Except Error Storage
    | [], m => .ok m
    | opt :: rest, m =>
      match opt m with
      | (some e, _) => .error e
      | (none, m1) => go rest m1
  go opts ⟨[], false⟩

/-- The loop of `nameFromPath`, on the reversed string: find the last dot and
keep what is before it. -/
def cutAtLastDot : Str → Option Str
  | [] => none
  | c :: cs => if c = '.' then some cs else cutAtLastDot cs

/-- Go's `Storage.nameFromPath`: the base name without its last extension. -/
def Storage.nameFromPath (_m : Storage) (path : Str) : Str :=
  let path := filepathBase path
  match cutAtLastDot path.reverse with
  | some r => r.reverse
  | none => path

/-- Go's `Storage.configPath`. -/
def Storage.configPath (m : Storage) (n : Str) : Str :=
  filepathJoin m.dir (n ++ hclExt)

/-- Go's `Storage.defaultPath`. -/
def Storage.defaultPath (m : Storage) : Str :=
  filepathJoin m.dir defaultEntry

/-- Go's `Storage.Default`. -/
def Storage.Default (m : Storage) (fs : FS) : Except Error Str :=
  let path := m.defaultPath
  match osLstat fs path with
  | .error e => if osIsNotExist (some e) then .ok [] else .error e
  | .ok fi =>
    if fi.isSymlink then
      match osReadlink fs path with
      | .error e => .error e
      | .ok target => .ok (m.nameFromPath target)
    else
      match ioutilReadFile fs path with
      | .error e => .error e
      | .ok contents => .ok contents

/-- Go's `Storage.UnsetDefault`. -/
def Storage.UnsetDefault (m : Storage) (fs : FS) : Option Error × FS :=
  match osRemove fs m.defaultPath with
  | (err, fs1) => (if osIsNotExist err then none else err, fs1)

/-- Go's `Storage.createSymlink`. -/
def Storage.createSymlink (_m : Storage) (src dst : Str) (fs : FS) : Option Error × FS :=
  match osRemove fs dst with
  | (err0, fs1) =>
    if err0 ≠ none ∧ osIsNotExist err0 = false then (err0, fs1)
    else
      match osSymlink fs1 src dst with
      | (err, fs2) =>
        match osReadlink fs2 dst with
        | .error _ => (err, fs2)
        | .ok ln => if ln ≠ src then (err, fs2) else (none, fs2)

/-- Go's `Storage.SetDefault`. -/
def Storage.SetDefault (m : Storage) (n : Str) (fs : FS) : Option Error × FS :=
  let src := m.configPath n
  match osStat fs src with
  | .error e => (some e, fs)
  | .ok _ =>
    let defaultPath := m.defaultPath
    if m.noSymlink = false then
      match m.createSymlink src defaultPath fs with
      | (none, fs1) => (none, fs1)
      | (some _, fs1) => ioutilWriteFile fs1 defaultPath n
    else ioutilWriteFile fs defaultPath n

/-- Go's `Storage.Delete`. -/
def Storage.Delete (m : Storage) (n : Str) (fs : FS) : Option Error × FS :=
  match osRemove fs (m.configPath n) with
  | (err0, fs1) =>
    match (if osIsNotExist err0 then none else err0) with
    | some e => (some e, fs1)
    | none =>
      match m.Default fs1 with
      | .error e => (some e, fs1)
      | .ok d => if d = n then m.UnsetDefault fs1 else (none, fs1)

/-- Go's `Storage.Set`. -/
def Storage.Set {Config : Type} (codec : Codec Config) (m : Storage) (n : Str) (c : Config)
    (fs : FS) : Option Error × FS :=
  let path := m.configPath n
  match osMkdirAll fs (filepathDir path) with
  | (some e, fs1) => (some e, fs1)
  | (none, fs1) =>
    match osCreate fs1 path with
    | (.error e, fs2) => (some e, fs2)
    | (.ok f, fs2) =>
      match writeTo codec c f fs2 with
      | (some e, fs3) => (some e, fs3)
      | (none, fs3) =>
        match m.Default fs3 with
        | .error e => (some e, fs3)
        | .ok d => if d = [] then m.SetDefault n fs3 else (none, fs3)

/-- Go's `Storage.Rename`. -/
def Storage.Rename (m : Storage) (fromName toName : Str) (fs : FS) : Option Error × FS :=
  let fromPath := m.configPath fromName
  match osStat fs fromPath with
  | .error e =>
    if osIsNotExist (some e) then (some (.contextDoesNotExist fromName), fs) else (some e, fs)
  | .ok _ =>
    match m.Delete toName fs with
    | (some e, fs1) => (some e, fs1)
    | (none, fs1) =>
      let toPath := m.configPath toName
      match osRename fs1 fromPath toPath with
      | (some e, fs2) => (some e, fs2)
      | (none, fs2) =>
        match m.Default fs2 with
        | .error e => (some e, fs2)
        | .ok d => if d = fromName then m.SetDefault toName fs2 else (none, fs2)

/-- Go's `Storage.Load`. -/
def Storage.Load {Config : Type} (codec : Codec Config) (m : Storage) (n : Str) (fs : FS) :
    Except Error Config :=
  LoadPath codec fs (m.configPath n)

/-- The loop of `Storage.List` over the names read from the directory;
`result` is the slice built so far.  Indexing an empty name panics. -/
def Storage.listLoop (m : Storage) : List Str → List Str → Except Error (List Str)
  | [], result => .ok result
  | n :: names, result =>
    match n.head? with
    | none => .error .indexOutOfRange
    | some c =>
      if c = '_' then Storage.listLoop m names result
      else if hasSuffix n hclExt then
        Storage.listLoop m names (result ++ [m.nameFromPath n])
      else Storage.listLoop m names result

/-- Go's `Storage.List`. -/
def Storage.List (m : Storage) (fs : FS) : Except Error (List Str) :=
  match osReaddirnames fs m.dir with
  | .error e => if osIsNotExist (some e) then .ok [] else .error e
  | .ok names => m.listLoop names []

/-! ## Store states -/

/-- A context name the store's callers may use: non-empty, not beginning
with `_`, and a single path component. -/
def validName (n : Str) : Prop :=
  n ≠ [] ∧ n.head? ≠ some '_' ∧ separator ∉ n

instance (n : Str) : Decidable (validName n) := by
  unfold validName; infer_instance

/-- A symbolic link is the default indicator and names a context; a regular
file is unconstrained. -/
def linkNamesContext (m : Storage) : Str × Node → Bool
  | (_, .file _) => true
  | (e, .link t) => decide (e = defaultEntry ∧ m.nameFromPath t ≠ [])

/-- The states of the store's directory.  The directory is the one the
`Storage` is configured with; its entries have distinct, well-formed names and
a directory that does not exist has none; context files are regular files, so
the only entry that may be a symbolic link is the default indicator, and such
a link names a context (its target's base name has a non-empty stem).  The
link may dangle, the indicator may be a regular file of any contents, and
regular files of any name may sit in the directory. -/
def StoreState (m : Storage) (fs : FS) : Prop :=
  fs.root = m.dir ∧
  (fs.dirExists = false → fs.entries = []) ∧
  (fs.entries.map Prod.fst).Nodup ∧
  (∀ p ∈ fs.entries, validEntry p.1) ∧
  (∀ p ∈ fs.entries, linkNamesContext m p = true)

instance (m : Storage) (fs : FS) : Decidable (StoreState m fs) := by
  unfold StoreState; infer_instance

instance : Inhabited Node := ⟨.file []⟩

/-! ## Specification functions

What the entries of the directory are after an operation, and what they
mean, written out for the statements and proofs below. -/

/-- The name the default indicator stands for, read off the entries. -/
def indicatorName (m : Storage) (es : List (Str × Node)) : Str :=
  match lookupEntry defaultEntry es with
  | none => []
  | some (.file d) => d
  | some (.link t) => m.nameFromPath t

/-- The error `os.Remove` reports for an entry, given what is there. -/
def removeErr : Option Node → Option Error
  | none => some .notExist
  | some _ => none

/-- The entries after `Delete n`. -/
def entriesAfterDelete (m : Storage) (n : Str) (es : List (Str × Node)) : List (Str × Node) :=
  if indicatorName m es = n then eraseEntry defaultEntry (eraseEntry (n ++ hclExt) es)
  else eraseEntry (n ++ hclExt) es

/-- The entries after a successful `SetDefault n` that takes one of its two
intended routes (a fresh link, or a plain file at the indicator). -/
def indicatorAfterSet (m : Storage) (n : Str) (fs : FS) : List (Str × Node) :=
  if m.noSymlink = false then
    match fs.symlinks with
    | .unsupported => putEntry defaultEntry (.file n) (eraseEntry defaultEntry fs.entries)
    | _ => putEntry defaultEntry (.link (m.configPath n)) (eraseEntry defaultEntry fs.entries)
  else putEntry defaultEntry (.file n) fs.entries

/-- The entries after a successful `Set n` that wrote `data`. -/
def entriesAfterSet (m : Storage) (n data : Str) (fs : FS) : List (Str × Node) :=
  if indicatorName m fs.entries = [] then
    indicatorAfterSet m n
      { fs with dirExists := true, entries := putEntry (n ++ hclExt) (.file data) fs.entries }
  else putEntry (n ++ hclExt) (.file data) fs.entries

/-- The name `Default()` returns after a successful `Rename(fromName, toName)`,
as a function of the name it returned before. -/
def defaultAfterRename (fromName toName before : Str) : Str :=
  if before = fromName then toName else if before = toName then [] else before

/-! ## Listing -/

/-- The test `List` applies to a directory entry name: the first byte is not
`_` and the name ends in `.hcl`. -/
def isContextEntry (e : Str) : Bool :=
  decide (e.head? ≠ some '_') && hasSuffix e hclExt

/-- The names `List` reports for the directory entry names `names`. -/
def listed (m : Storage) (names : List Str) : List Str :=
  (names.filter isContextEntry).map m.nameFromPath

/-! ## Sequences of `Set` calls -/

/-- A sequence of `Set` calls, every one of which succeeds; `none` as soon as
one fails. -/
def runSets {Config : Type} (codec : Codec Config) (m : Storage) :
    List (Str × Config) → FS → Option FS
  | [], fs => some fs
  | (n, c) :: rest, fs =>
    match m.Set codec n c fs with
    | (none, fs1) => runSets codec m rest fs1
    | (some _, _) => none

/-! ## Example stores -/

/-- The codec whose documents are their own bytes. -/
def bytesCodec : Codec Str := ⟨some, some⟩

/-- A store at `/ctx` that may use symbolic links. -/
def linkStore : Storage := ⟨"/ctx".toList, false⟩

/-- A store at `/ctx` built with `WithNoSymlink`. -/
def plainStore : Storage := ⟨"/ctx".toList, true⟩

/-- The directory `/ctx` before it exists. -/
def noDir : FS := ⟨"/ctx".toList, false, .works, []⟩

/-- `/ctx` holding contexts `a` and `b`, the default a symbolic link to `a`. -/
def abLinkA : FS :=
  ⟨"/ctx".toList, true, .works,
    [("a.hcl".toList, .file "x=1".toList),
     ("_default.hcl".toList, .link "/ctx/a.hcl".toList),
     ("b.hcl".toList, .file "x=2".toList)]⟩

/-- `/ctx` with two contexts, `a` and `b.c`, next to a reserved file
`_x.hcl`, a stray `notes.txt` and a plain-file indicator naming `a`. -/
def mixedDir : FS :=
  ⟨"/ctx".toList, true, .works,
    [("_x.hcl".toList, .file "hidden".toList),
     ("a.hcl".toList, .file "x=1".toList),
     ("notes.txt".toList, .file "todo".toList),
     ("_default.hcl".toList, .file "a".toList),
     ("b.c.hcl".toList, .file "x=2".toList)]⟩

/-- `/ctx` holding context `b` only, while the indicator is still a link to
the context file of `a`, which is gone. -/
def danglingA : FS :=
  ⟨"/ctx".toList, true, .works,
    [("b.hcl".toList, .file "x=2".toList),
     ("_default.hcl".toList, .link "/ctx/a.hcl".toList)]⟩

/-- Three `Set` calls, one of the names containing a dot. -/
def threeSets : List (Str × Str) :=
  [("prod".toList, "x=1".toList), ("dev.eu".toList, "x=2".toList), ("qa".toList, "x=3".toList)]

/-- The directory `/ctx` after `threeSets` ran on `noDir` without symlinks. -/
def afterThreeSets : FS :=
  ⟨"/ctx".toList, true, .works,
    [("prod.hcl".toList, .file "x=1".toList),
     ("_default.hcl".toList, .file "prod".toList),
     ("dev.eu.hcl".toList, .file "x=2".toList),
     ("qa.hcl".toList, .file "x=3".toList)]⟩

/-! ## Lemmas on paths -/

theorem stripPrefix_append (p e : Str) : stripPrefix p (p ++ e) = some e := by
  induction p with
  | nil => cases e <;> rfl
  | cons c cs ih => simp [stripPrefix, ih]

theorem trimTrailingSep_append_of_ne (p : Str) (c : Char) (hc : c ≠ separator) :
    trimTrailingSep (p ++ [c]) = p ++ [c] := by
  simp [trimTrailingSep, List.dropWhile, hc]

theorem dirPrefix_cases (d : Str) :
    dirPrefix d = [] ∨ ∃ t, dirPrefix d = t ++ [separator] := by
  unfold dirPrefix
  by_cases h1 : d = []
  · simp [h1]
  · by_cases h2 : trimTrailingSep d = []
    · right; exact ⟨[], by simp [h1, h2]⟩
    · by_cases h3 : trimTrailingSep d = ['.']
      · left; simp [h1, h2, h3]
      · right; exact ⟨trimTrailingSep d, by simp [h1, h2, h3]⟩

theorem takeWhile_ne_sep_of_not_mem (e rest : Str) (he : separator ∉ e)
    (hr : rest = [] ∨ ∃ r, rest = separator :: r) :
    (e ++ rest).takeWhile (fun c => decide (c ≠ separator)) = e := by
  induction e with
  | nil =>
    rcases hr with rfl | ⟨r, rfl⟩
    · rfl
    · simp [List.takeWhile]
  | cons c cs ih =>
    have hc : c ≠ separator := fun h => he (by simp [h])
    have hcs : separator ∉ cs := fun h => he (by simp [h])
    have hd : decide (c ≠ separator) = true := by simp [hc]
    simp only [List.cons_append, List.takeWhile_cons, hd, if_true, ih hcs]

theorem dropWhile_ne_sep_of_not_mem (e rest : Str) (he : separator ∉ e)
    (hr : rest = [] ∨ ∃ r, rest = separator :: r) :
    (e ++ rest).dropWhile (fun c => decide (c ≠ separator)) = rest := by
  induction e with
  | nil =>
    rcases hr with rfl | ⟨r, rfl⟩
    · rfl
    · simp [List.dropWhile]
  | cons c cs ih =>
    have hc : c ≠ separator := fun h => he (by simp [h])
    have hcs : separator ∉ cs := fun h => he (by simp [h])
    have hd : decide (c ≠ separator) = true := by simp [hc]
    simp only [List.cons_append, List.dropWhile_cons, hd, if_true, ih hcs]

theorem reverse_prefix_cases (pre : Str)
    (hp : pre = [] ∨ ∃ t, pre = t ++ [separator]) :
    pre.reverse = [] ∨ ∃ r, pre.reverse = separator :: r := by
  rcases hp with rfl | ⟨t, rfl⟩
  · left; rfl
  · right; exact ⟨t.reverse, by simp⟩

theorem lastElem_append (pre e : Str) (he : separator ∉ e)
    (hp : pre = [] ∨ ∃ t, pre = t ++ [separator]) : lastElem (pre ++ e) = e := by
  unfold lastElem
  rw [List.reverse_append,
    takeWhile_ne_sep_of_not_mem e.reverse pre.reverse (by simpa using he)
      (reverse_prefix_cases pre hp)]
  simp

theorem uptoLastSep_append (pre e : Str) (he : separator ∉ e)
    (hp : pre = [] ∨ ∃ t, pre = t ++ [separator]) : uptoLastSep (pre ++ e) = pre := by
  unfold uptoLastSep
  rw [List.reverse_append,
    dropWhile_ne_sep_of_not_mem e.reverse pre.reverse (by simpa using he)
      (reverse_prefix_cases pre hp)]
  simp

theorem trimTrailingSep_append (pre e : Str) (he : separator ∉ e) (hne : e ≠ []) :
    trimTrailingSep (pre ++ e) = pre ++ e := by
  unfold trimTrailingSep
  rw [List.reverse_append]
  obtain ⟨c, cs, hcs⟩ : ∃ c cs, e.reverse = c :: cs := by
    cases h : e.reverse with
    | nil => simp at h; exact absurd h hne
    | cons c cs => exact ⟨c, cs, rfl⟩
  have hc : c ≠ separator := by
    intro h
    apply he
    have : c ∈ e.reverse := by rw [hcs]; simp
    simpa [h] using this
  have hd : decide (c = separator) = false := by simp [hc]
  rw [hcs]
  simp only [List.cons_append, List.dropWhile_cons, hd, Bool.false_eq_true, if_false]
  rw [← List.cons_append, ← hcs, ← List.reverse_append, List.reverse_reverse]

theorem filepathBase_join (d e : Str) (hne : e ≠ []) (he : separator ∉ e) :
    filepathBase (filepathJoin d e) = e := by
  unfold filepathBase filepathJoin
  have h1 : dirPrefix d ++ e ≠ [] := by simp [hne]
  simp only [h1, if_false]
  rw [trimTrailingSep_append _ _ he hne, lastElem_append _ _ he (dirPrefix_cases d)]
  simp [hne]

theorem filepathBase_entry (e : Str) (hne : e ≠ []) (he : separator ∉ e) :
    filepathBase e = e := by
  have := filepathBase_join [] e hne he
  simpa [filepathJoin, dirPrefix] using this

theorem cutAtLastDot_hcl (n : Str) : cutAtLastDot (n ++ hclExt).reverse = some n.reverse := by
  simp [hclExt, cutAtLastDot]

theorem hasSuffix_iff (e s : Str) : hasSuffix e s = true ↔ ∃ r, e = r ++ s := by
  unfold hasSuffix
  rw [List.isPrefixOf_iff_prefix, List.reverse_prefix]
  constructor
  · rintro ⟨t, rfl⟩; exact ⟨t, rfl⟩
  · rintro ⟨t, rfl⟩; exact ⟨t, rfl⟩

theorem sep_not_mem_hcl {n : Str} (h : separator ∉ n) : separator ∉ n ++ hclExt := by
  simp only [List.mem_append, not_or]
  exact ⟨h, by decide⟩

theorem validEntry_hcl {n : Str} (h : separator ∉ n) : validEntry (n ++ hclExt) := by
  refine ⟨by simp [hclExt], sep_not_mem_hcl h, ?_, ?_⟩
  · intro h1
    have := congrArg List.length h1
    simp [hclExt] at this
  · intro h1
    have := congrArg List.length h1
    simp [hclExt] at this

theorem validEntry_default : validEntry defaultEntry := by decide

theorem hcl_ne_default {n : Str} (h : validName n) : n ++ hclExt ≠ defaultEntry := by
  obtain ⟨h1, h2, _⟩ := h
  cases n with
  | nil => exact absurd rfl h1
  | cons c cs =>
    intro h3
    simp [defaultEntry] at h3
    simp [h3.1] at h2

theorem hcl_inj {a b : Str} : a ++ hclExt = b ++ hclExt ↔ a = b := by
  simp

theorem nameFromPath_hcl (m : Storage) (n : Str) (h : separator ∉ n) :
    m.nameFromPath (n ++ hclExt) = n := by
  unfold Storage.nameFromPath
  rw [filepathBase_entry _ (by simp [hclExt]) (sep_not_mem_hcl h)]
  simp only [cutAtLastDot_hcl, List.reverse_reverse]

theorem nameFromPath_configPath (m m' : Storage) (n : Str) (h : separator ∉ n) :
    m.nameFromPath (m'.configPath n) = n := by
  unfold Storage.nameFromPath Storage.configPath
  rw [filepathBase_join _ _ (by simp [hclExt]) (sep_not_mem_hcl h)]
  simp only [cutAtLastDot_hcl, List.reverse_reverse]

theorem entryOf_join (root e : Str) (he : validEntry e) :
    entryOf root (filepathJoin root e) = some e := by
  simp [entryOf, filepathJoin, stripPrefix_append, he]

theorem entryOf_configPath (m : Storage) (n : Str) (h : separator ∉ n) :
    entryOf m.dir (m.configPath n) = some (n ++ hclExt) :=
  entryOf_join _ _ (validEntry_hcl h)

theorem entryOf_defaultPath (m : Storage) :
    entryOf m.dir m.defaultPath = some defaultEntry :=
  entryOf_join _ _ validEntry_default

theorem trimTrailingSep_idem (d : Str) : trimTrailingSep (trimTrailingSep d) = trimTrailingSep d := by
  simp [trimTrailingSep, List.dropWhile_idempotent]

theorem trimTrailingSep_snoc_sep (t : Str) :
    trimTrailingSep (t ++ [separator]) = trimTrailingSep t := by
  simp [trimTrailingSep, List.dropWhile_cons]

theorem dirPrefix_filepathDir_join (d e : Str) (he : separator ∉ e) :
    dirPrefix (filepathDir (filepathJoin d e)) = dirPrefix d := by
  unfold filepathDir filepathJoin
  rw [uptoLastSep_append _ _ he (dirPrefix_cases d)]
  unfold dirPrefix
  by_cases h1 : d = []
  · simp [h1]; decide
  · by_cases h2 : trimTrailingSep d = []
    · simp [h1, h2]; decide
    · by_cases h3 : trimTrailingSep d = ['.']
      · simp [h1, h2, h3]; decide
      · simp [h1, h2, h3, trimTrailingSep_snoc_sep, trimTrailingSep_idem]

/-! ## Lemmas on directory entries -/

theorem lookup_put_same (k : Str) (v : Node) (es : List (Str × Node)) :
    lookupEntry k (putEntry k v es) = some v := by
  induction es with
  | nil => simp [putEntry, lookupEntry]
  | cons p es ih =>
    obtain ⟨k', v'⟩ := p
    by_cases h : k' = k <;> simp [putEntry, lookupEntry, h, ih]

theorem lookup_put_ne {k k' : Str} (h : k' ≠ k) (v : Node) (es : List (Str × Node)) :
    lookupEntry k' (putEntry k v es) = lookupEntry k' es := by
  induction es with
  | nil => simp [putEntry, lookupEntry, Ne.symm h]
  | cons p es ih =>
    obtain ⟨k0, v0⟩ := p
    by_cases h0 : k0 = k
    · subst h0
      simp [putEntry, lookupEntry, Ne.symm h]
    · by_cases h1 : k0 = k'
      · subst h1
        simp [putEntry, lookupEntry, h0]
      · simp [putEntry, lookupEntry, h0, h1, ih]

theorem lookup_erase_same (k : Str) (es : List (Str × Node)) :
    lookupEntry k (eraseEntry k es) = none := by
  induction es with
  | nil => rfl
  | cons p es ih =>
    obtain ⟨k', v'⟩ := p
    by_cases h : k' = k
    · simpa [eraseEntry, List.filter_cons, h] using ih
    · simpa [eraseEntry, List.filter_cons, h, lookupEntry] using ih

theorem lookup_erase_ne {k k' : Str} (h : k' ≠ k) (es : List (Str × Node)) :
    lookupEntry k' (eraseEntry k es) = lookupEntry k' es := by
  induction es with
  | nil => rfl
  | cons p es ih =>
    obtain ⟨k0, v0⟩ := p
    by_cases h0 : k0 = k
    · subst h0
      simpa [eraseEntry, List.filter_cons, lookupEntry, Ne.symm h] using ih
    · by_cases h1 : k0 = k'
      · subst h1
        simp [eraseEntry, List.filter_cons, lookupEntry, h0]
      · simpa [eraseEntry, List.filter_cons, lookupEntry, h0, h1] using ih

theorem lookup_eq_none_iff (k : Str) (es : List (Str × Node)) :
    lookupEntry k es = none ↔ k ∉ es.map Prod.fst := by
  induction es with
  | nil => simp [lookupEntry]
  | cons p es ih =>
    obtain ⟨k', v'⟩ := p
    by_cases h : k' = k
    · simp [lookupEntry, h]
    · simp [lookupEntry, h, ih, Ne.symm h]

theorem mem_of_lookup {k : Str} {v : Node} {es : List (Str × Node)}
    (h : lookupEntry k es = some v) : (k, v) ∈ es := by
  induction es with
  | nil => simp [lookupEntry] at h
  | cons p es ih =>
    obtain ⟨k', v'⟩ := p
    by_cases h0 : k' = k
    · simp [lookupEntry, h0] at h
      simp [h0, h]
    · simp [lookupEntry, h0] at h
      simp [ih h]

theorem erase_of_lookup_none {k : Str} {es : List (Str × Node)}
    (h : lookupEntry k es = none) : eraseEntry k es = es := by
  rw [lookup_eq_none_iff] at h
  unfold eraseEntry
  rw [List.filter_eq_self]
  intro p hp
  have : p.1 ≠ k := fun h1 => h (by rw [← h1]; exact List.mem_map_of_mem _ hp)
  simp [this]

theorem put_of_lookup_none {k : Str} (v : Node) {es : List (Str × Node)}
    (h : lookupEntry k es = none) : putEntry k v es = es ++ [(k, v)] := by
  induction es with
  | nil => rfl
  | cons p es ih =>
    obtain ⟨k', v'⟩ := p
    by_cases h0 : k' = k
    · simp [lookupEntry, h0] at h
    · simp [lookupEntry, h0] at h
      simp [putEntry, h0, ih h]

theorem put_put (k : Str) (v w : Node) (es : List (Str × Node)) :
    putEntry k v (putEntry k w es) = putEntry k v es := by
  induction es with
  | nil => simp [putEntry]
  | cons p es ih =>
    obtain ⟨k', v'⟩ := p
    by_cases h0 : k' = k <;> simp [putEntry, h0, ih]

theorem erase_put_same (k : Str) (v : Node) (es : List (Str × Node)) :
    eraseEntry k (putEntry k v es) = eraseEntry k es := by
  induction es with
  | nil => simp [putEntry, eraseEntry]
  | cons p es ih =>
    obtain ⟨k', v'⟩ := p
    by_cases h0 : k' = k
    · simp [putEntry, eraseEntry, List.filter_cons, h0]
    · simpa [putEntry, eraseEntry, List.filter_cons, h0] using ih

theorem erase_put_ne {k d : Str} (h : k ≠ d) (v : Node) (es : List (Str × Node)) :
    eraseEntry d (putEntry k v es) = putEntry k v (eraseEntry d es) := by
  induction es with
  | nil => simp [putEntry, eraseEntry, List.filter_cons, h]
  | cons p es ih =>
    obtain ⟨k', v'⟩ := p
    by_cases h0 : k' = k
    · subst h0
      simp [putEntry, eraseEntry, List.filter_cons, h]
    · by_cases h1 : k' = d
      · subst h1
        simpa [putEntry, eraseEntry, List.filter_cons, h0] using ih
      · simpa [putEntry, eraseEntry, List.filter_cons, h0, h1] using ih

theorem erase_erase_comm (a b : Str) (es : List (Str × Node)) :
    eraseEntry a (eraseEntry b es) = eraseEntry b (eraseEntry a es) := by
  simp only [eraseEntry, List.filter_filter]
  congr 1
  funext p
  exact Bool.and_comm _ _

theorem erase_idem (a : Str) (es : List (Str × Node)) :
    eraseEntry a (eraseEntry a es) = eraseEntry a es := by
  simp [eraseEntry, List.filter_filter]

theorem mem_erase {p : Str × Node} {k : Str} {es : List (Str × Node)} :
    p ∈ eraseEntry k es ↔ p ∈ es ∧ p.1 ≠ k := by
  simp [eraseEntry, List.mem_filter]

theorem mem_put {p : Str × Node} {k : Str} {v : Node} {es : List (Str × Node)}
    (h : p ∈ putEntry k v es) : p = (k, v) ∨ p ∈ es := by
  induction es with
  | nil => simpa [putEntry] using h
  | cons q es ih =>
    obtain ⟨k', v'⟩ := q
    by_cases h0 : k' = k
    · simp [putEntry, h0] at h
      rcases h with h | h
      · exact Or.inl h
      · exact Or.inr (List.mem_cons_of_mem _ h)
    · simp [putEntry, h0] at h
      rcases h with h | h
      · exact Or.inr (by simp [h])
      · rcases ih h with h | h
        · exact Or.inl h
        · exact Or.inr (List.mem_cons_of_mem _ h)

theorem keys_put (k : Str) (v : Node) (es : List (Str × Node)) :
    (putEntry k v es).map Prod.fst =
      if k ∈ es.map Prod.fst then es.map Prod.fst else es.map Prod.fst ++ [k] := by
  induction es with
  | nil => simp [putEntry]
  | cons p es ih =>
    obtain ⟨k', v'⟩ := p
    by_cases h0 : k' = k
    · simp [putEntry, h0]
    · by_cases h1 : k ∈ es.map Prod.fst
      · simp only [putEntry, h0, if_false, List.map_cons, ih, h1, if_true]
        simp [h1]
      · simp only [putEntry, h0, if_false, List.map_cons, ih, h1]
        simp [h1, Ne.symm h0]

theorem nodup_keys_put {k : Str} (v : Node) {es : List (Str × Node)}
    (h : (es.map Prod.fst).Nodup) : ((putEntry k v es).map Prod.fst).Nodup := by
  rw [keys_put]
  by_cases h1 : k ∈ es.map Prod.fst
  · simpa [h1] using h
  · simp only [h1, if_false]
    rw [List.nodup_append]
    refine ⟨h, by simp, ?_⟩
    intro a ha hb
    simp at hb
    exact h1 (hb ▸ ha)

theorem nodup_keys_erase (k : Str) {es : List (Str × Node)}
    (h : (es.map Prod.fst).Nodup) : ((eraseEntry k es).map Prod.fst).Nodup := by
  unfold eraseEntry
  exact List.Nodup.sublist (List.Sublist.map _ (List.filter_sublist _)) h

/-! ## The system calls on the store's own paths -/

theorem resolve_file {fs : FS} {e d : Str} (h : lookupEntry e fs.entries = some (.file d)) :
    resolve fs maxHops e = .file e d := by
  simp [maxHops, resolve, h]

theorem resolve_absent {fs : FS} {e : Str} (h : lookupEntry e fs.entries = none) :
    resolve fs maxHops e = .absent e := by
  simp [maxHops, resolve, h]

theorem Default_eq (m : Storage) (fs : FS) (hr : fs.root = m.dir) :
    m.Default fs = .ok (indicatorName m fs.entries) := by
  have hd : entryOf fs.root m.defaultPath = some defaultEntry := by
    rw [hr]; exact entryOf_defaultPath m
  cases h : lookupEntry defaultEntry fs.entries with
  | none =>
    simp [Storage.Default, indicatorName, osLstat, hd, h, osIsNotExist]
  | some v =>
    cases v with
    | file d =>
      simp [Storage.Default, indicatorName, osLstat, ioutilReadFile, hd, h, resolve_file h]
    | link t =>
      simp [Storage.Default, indicatorName, osLstat, osReadlink, hd, h]

theorem indicatorName_erase_ne (m : Storage) {k : Str} (h : k ≠ defaultEntry)
    (es : List (Str × Node)) : indicatorName m (eraseEntry k es) = indicatorName m es := by
  simp [indicatorName, lookup_erase_ne (Ne.symm h)]

theorem indicatorName_put_ne (m : Storage) {k : Str} (h : k ≠ defaultEntry) (v : Node)
    (es : List (Str × Node)) : indicatorName m (putEntry k v es) = indicatorName m es := by
  simp [indicatorName, lookup_put_ne (Ne.symm h)]

theorem indicatorName_erase_default (m : Storage) (es : List (Str × Node)) :
    indicatorName m (eraseEntry defaultEntry es) = [] := by
  simp [indicatorName, lookup_erase_same]

theorem removeErr_normalised (o : Option Node) :
    (if osIsNotExist (removeErr o) = true then none else removeErr o) = none := by
  cases o <;> simp [removeErr, osIsNotExist]

theorem removeErr_continue (o : Option Node) :
    ¬ (removeErr o ≠ none ∧ osIsNotExist (removeErr o) = false) := by
  cases o <;> simp [removeErr, osIsNotExist]

theorem osRemove_eq {fs : FS} {path e : Str} (h : entryOf fs.root path = some e) :
    osRemove fs path =
      (removeErr (lookupEntry e fs.entries), { fs with entries := eraseEntry e fs.entries }) := by
  cases h1 : lookupEntry e fs.entries with
  | none => simp [osRemove, h, h1, erase_of_lookup_none h1, removeErr]
  | some v => simp [osRemove, h, h1, removeErr]

theorem resolve_unfold (fs : FS) (e : Str) :
    resolve fs maxHops e =
      match lookupEntry e fs.entries with
      | none => .absent e
      | some (.file d) => .file e d
      | some (.link t) =>
        match targetEntry fs.root t with
        | none => .outside
        | some e' => resolve fs 39 e' := rfl

theorem UnsetDefault_eq (m : Storage) (fs : FS) (hr : fs.root = m.dir) :
    m.UnsetDefault fs = (none, { fs with entries := eraseEntry defaultEntry fs.entries }) := by
  have hd : entryOf fs.root m.defaultPath = some defaultEntry := by
    rw [hr]; exact entryOf_defaultPath m
  unfold Storage.UnsetDefault
  rw [osRemove_eq hd]
  simp only [removeErr_normalised]

theorem Delete_eq (m : Storage) (n : Str) (fs : FS) (hr : fs.root = m.dir)
    (hn : validName n) :
    m.Delete n fs = (none, { fs with entries := entriesAfterDelete m n fs.entries }) := by
  unfold entriesAfterDelete
  have hc : entryOf fs.root (m.configPath n) = some (n ++ hclExt) := by
    rw [hr]; exact entryOf_configPath m n hn.2.2
  unfold Storage.Delete
  rw [osRemove_eq hc]
  simp only [removeErr_normalised]
  rw [Default_eq m _ (by simpa using hr)]
  simp only [indicatorName_erase_ne m (hcl_ne_default hn)]
  by_cases h2 : indicatorName m fs.entries = n
  · simp only [h2, if_true]
    rw [UnsetDefault_eq m _ (by simpa using hr)]
  · simp only [h2, if_false]

theorem SetDefault_eq (m : Storage) (n : Str) (fs : FS) (hr : fs.root = m.dir)
    (hn : separator ∉ n) {c : Str} (hex : lookupEntry (n ++ hclExt) fs.entries = some (.file c))
    (hdir : fs.dirExists = true)
    (hok : m.noSymlink = true → ∀ t, lookupEntry defaultEntry fs.entries ≠ some (.link t)) :
    m.SetDefault n fs = (none, { fs with entries := indicatorAfterSet m n fs }) := by
  have hd : entryOf fs.root m.defaultPath = some defaultEntry := by
    rw [hr]; exact entryOf_defaultPath m
  have hc : entryOf fs.root (m.configPath n) = some (n ++ hclExt) := by
    rw [hr]; exact entryOf_configPath m n hn
  unfold Storage.SetDefault
  simp only [osStat, hc, resolve_file hex]
  cases hns : m.noSymlink with
  | false =>
    simp only [if_true, Storage.createSymlink, osRemove_eq hd]
    simp only [removeErr_continue, if_false]
    cases hs : fs.symlinks with
    | works =>
      simp [osSymlink, osReadlink, hd, hdir, hs, lookup_erase_same, lookup_put_same,
        indicatorAfterSet, hns]
    | spuriousError =>
      simp [osSymlink, osReadlink, hd, hdir, hs, lookup_erase_same, lookup_put_same,
        indicatorAfterSet, hns]
    | unsupported =>
      simp [osSymlink, osReadlink, hd, hdir, hs, lookup_erase_same,
        indicatorAfterSet, hns, ioutilWriteFile, openTrunc, resolve_unfold, fileWrite, put_put]
  | true =>
    have hok1 := hok hns
    cases h1 : lookupEntry defaultEntry fs.entries with
    | none =>
      simp [ioutilWriteFile, openTrunc, hd, hdir, resolve_absent h1, fileWrite, put_put,
        indicatorAfterSet, hns]
    | some v =>
      cases v with
      | file d =>
        simp [ioutilWriteFile, openTrunc, hd, hdir, resolve_file h1, fileWrite, put_put,
          indicatorAfterSet, hns]
      | link t => exact absurd h1 (hok1 t)

theorem indicatorName_afterSet (m : Storage) (n : Str) (fs : FS) (hn : separator ∉ n) :
    indicatorName m (indicatorAfterSet m n fs) = n := by
  unfold indicatorAfterSet indicatorName
  cases m.noSymlink <;> cases fs.symlinks <;>
    simp [lookup_put_same, nameFromPath_configPath m m n hn]

theorem erase_default_afterSet (m : Storage) (n : Str) (fs : FS) :
    eraseEntry defaultEntry (indicatorAfterSet m n fs) = eraseEntry defaultEntry fs.entries := by
  unfold indicatorAfterSet
  cases m.noSymlink <;> cases fs.symlinks <;> simp [erase_put_same, erase_idem]

theorem lookup_afterSet (m : Storage) (n : Str) (fs : FS) {k : Str} (hk : k ≠ defaultEntry) :
    lookupEntry k (indicatorAfterSet m n fs) = lookupEntry k fs.entries := by
  unfold indicatorAfterSet
  cases m.noSymlink <;> cases fs.symlinks <;> simp [lookup_put_ne hk, lookup_erase_ne hk]

theorem Load_eq {Config : Type} (codec : Codec Config) (m : Storage) (k : Str) (fs : FS)
    (hr : fs.root = m.dir) (hk : separator ∉ k)
    (hnl : ∀ t, lookupEntry (k ++ hclExt) fs.entries ≠ some (.link t)) :
    m.Load codec k fs =
      match lookupEntry (k ++ hclExt) fs.entries with
      | some (.file d) =>
        (match codec.decode d with
          | none => .error .codec
          | some c => .ok c)
      | _ => .error .notExist := by
  have hc : entryOf fs.root (m.configPath k) = some (k ++ hclExt) := by
    rw [hr]; exact entryOf_configPath m k hk
  cases h1 : lookupEntry (k ++ hclExt) fs.entries with
  | none => simp [Storage.Load, LoadPath, ioutilReadFile, hc, resolve_absent h1]
  | some v =>
    cases v with
    | file d =>
      simp only [Storage.Load, LoadPath, ioutilReadFile, hc, resolve_file h1]
    | link t => exact absurd h1 (hnl t)

/-! ## Lemmas on store states -/

theorem StoreState.not_link {m : Storage} {fs : FS} (hs : StoreState m fs) {e : Str}
    (he : e ≠ defaultEntry) (t : Str) : lookupEntry e fs.entries ≠ some (.link t) := by
  intro h
  have := hs.2.2.2.2 _ (mem_of_lookup h)
  simp [linkNamesContext, he] at this

theorem StoreState.link_named {m : Storage} {fs : FS} (hs : StoreState m fs) {t : Str}
    (h : lookupEntry defaultEntry fs.entries = some (.link t)) : m.nameFromPath t ≠ [] := by
  have := hs.2.2.2.2 _ (mem_of_lookup h)
  simpa [linkNamesContext] using this

theorem StoreState.dirExists_of_lookup {m : Storage} {fs : FS} (hs : StoreState m fs)
    {e : Str} {v : Node} (h : lookupEntry e fs.entries = some v) : fs.dirExists = true := by
  cases hd : fs.dirExists with
  | true => rfl
  | false =>
    rw [hs.2.1 hd] at h
    simp [lookupEntry] at h

theorem StoreState.indicator_not_link {m : Storage} {fs : FS} (hs : StoreState m fs)
    (h : indicatorName m fs.entries = []) (t : Str) :
    lookupEntry defaultEntry fs.entries ≠ some (.link t) := by
  intro h1
  have h2 := hs.link_named h1
  simp [indicatorName, h1] at h
  exact h2 h

theorem Set_eq {Config : Type} (codec : Codec Config) (m : Storage) (n : Str) (c : Config)
    (fs : FS) (hs : StoreState m fs) (hn : validName n) {data : Str}
    (henc : codec.encode c = some data) :
    m.Set codec n c fs =
      (none, { fs with dirExists := true, entries := entriesAfterSet m n data fs }) := by
  have hr := hs.1
  have hc : entryOf fs.root (m.configPath n) = some (n ++ hclExt) := by
    rw [hr]; exact entryOf_configPath m n hn.2.2
  have hdir : dirPrefix (filepathDir (m.configPath n)) = dirPrefix fs.root := by
    rw [hr]; exact dirPrefix_filepathDir_join _ _ (sep_not_mem_hcl hn.2.2)
  have hnd := hcl_ne_default hn
  have hopen : openTrunc { fs with dirExists := true } (m.configPath n) =
      (.ok (n ++ hclExt),
        { fs with dirExists := true,
                  entries := putEntry (n ++ hclExt) (.file []) fs.entries }) := by
    cases h1 : lookupEntry (n ++ hclExt) fs.entries with
    | none => simp [openTrunc, hc, resolve_unfold, h1]
    | some v =>
      cases v with
      | file d => simp [openTrunc, hc, resolve_unfold, h1]
      | link t => exact absurd h1 (hs.not_link hnd t)
  unfold Storage.Set
  simp only [osMkdirAll, hdir, if_true, osCreate, hopen, writeTo, henc, fileWrite, put_put]
  rw [Default_eq m _ (by simpa using hr)]
  simp only [indicatorName_put_ne m hnd]
  unfold entriesAfterSet
  by_cases h0 : indicatorName m fs.entries = []
  · simp only [h0, if_true]
    rw [SetDefault_eq m n _ (by simpa using hr) hn.2.2 (lookup_put_same _ _ _) rfl]
    intro _ t
    simp only [lookup_put_ne (Ne.symm hnd)]
    exact hs.indicator_not_link h0 t
  · simp only [h0, if_false]

theorem Set_encode_fails {Config : Type} (codec : Codec Config) (m : Storage) (n : Str)
    (c : Config) (fs : FS) (hs : StoreState m fs) (hn : validName n)
    (henc : codec.encode c = none) : (m.Set codec n c fs).1 = some .codec := by
  have hr := hs.1
  have hc : entryOf fs.root (m.configPath n) = some (n ++ hclExt) := by
    rw [hr]; exact entryOf_configPath m n hn.2.2
  have hdir : dirPrefix (filepathDir (m.configPath n)) = dirPrefix fs.root := by
    rw [hr]; exact dirPrefix_filepathDir_join _ _ (sep_not_mem_hcl hn.2.2)
  have hnd := hcl_ne_default hn
  cases h1 : lookupEntry (n ++ hclExt) fs.entries with
  | none =>
    simp [Storage.Set, osMkdirAll, hdir, osCreate, openTrunc, hc, resolve_unfold, h1, writeTo,
      henc]
  | some v =>
    cases v with
    | file d =>
      simp [Storage.Set, osMkdirAll, hdir, osCreate, openTrunc, hc, resolve_unfold, h1, writeTo,
        henc]
    | link t => exact absurd h1 (hs.not_link hnd t)

/-! ## Lemmas on listing -/

theorem listLoop_eq (m : Storage) (names : List Str) (h : ∀ e ∈ names, e ≠ []) (acc : List Str) :
    m.listLoop names acc = .ok (acc ++ listed m names) := by
  induction names generalizing acc with
  | nil => simp [Storage.listLoop, listed]
  | cons e rest ih =>
    have hrest : ∀ e ∈ rest, e ≠ [] := fun x hx => h x (List.mem_cons_of_mem _ hx)
    cases e with
    | nil => exact absurd rfl (h [] (List.mem_cons_self _ _))
    | cons c cs =>
      by_cases hc : c = '_'
      · simp [Storage.listLoop, hc, ih hrest, listed, isContextEntry, List.filter_cons]
      · by_cases hsuf : hasSuffix (c :: cs) hclExt = true
        · simp [Storage.listLoop, hc, hsuf, ih hrest, listed, isContextEntry, List.filter_cons]
        · simp [Storage.listLoop, hc, hsuf, ih hrest, listed, isContextEntry, List.filter_cons]

theorem suffix_foldl_step (rooted : Bool) :
    ∀ (comps : List Str) (cur : List Str), walksBackFrom true comps = false →
      cur <:+ comps.foldl (stepComponent rooted) cur := by
  intro comps
  induction comps with
  | nil => intro cur _; exact List.suffix_refl cur
  | cons comp rest ih =>
    intro cur h
    by_cases hdd : comp = dotdot
    · simp [walksBackFrom, hdd] at h
    · by_cases hn : isName comp = true
      · have hrest : walksBackFrom true rest = false := by
          simpa [walksBackFrom, hdd, hn] using h
        have hskip : ¬ (comp = [] ∨ comp = ['.']) := by
          simp only [isName, decide_eq_true_eq] at hn
          exact fun hc => hc.elim hn.1 hn.2.1
        have hstep : stepComponent rooted cur comp = comp :: cur := by
          simp [stepComponent, hskip, hdd]
        rw [List.foldl_cons, hstep]
        exact List.IsSuffix.trans (List.suffix_cons comp cur) (ih (comp :: cur) hrest)
      · have hrest : walksBackFrom true rest = false := by
          simpa [walksBackFrom, hdd, hn] using h
        have hskip : comp = [] ∨ comp = ['.'] := by
          simp only [isName, decide_eq_true_eq, not_and_or, not_not] at hn
          rcases hn with h1 | h1 | h1
          · exact Or.inl h1
          · exact Or.inr h1
          · exact absurd h1 hdd
        have hstep : stepComponent rooted cur comp = cur := by
          simp [stepComponent, hskip]
        rw [List.foldl_cons, hstep]
        exact ih cur hrest

theorem walkReaches_of_noStepBack (rooted : Bool) :
    ∀ (comps : List Str) (seen : Bool) (cur : List Str), walksBackFrom seen comps = false →
      walkReaches rooted (comps.foldl (stepComponent rooted) cur) cur comps = true := by
  intro comps
  induction comps with
  | nil => intro seen cur _; simp [walkReaches]
  | cons comp rest ih =>
    intro seen cur h
    by_cases hdd : comp = dotdot
    · have hnn : isName comp = false := by simp [isName, hdd]
      have hseen : seen = false := by
        cases seen with
        | false => rfl
        | true => simp [walksBackFrom, hdd] at h
      have hrest : walksBackFrom false rest = false := by
        simpa [walksBackFrom, hdd, hseen] using h
      simp only [walkReaches, hnn, Bool.false_eq_true, false_and, if_false, List.foldl_cons]
      exact ih false _ hrest
    · by_cases hn : isName comp = true
      · have hrest : walksBackFrom true rest = false := by
          simpa [walksBackFrom, hdd, hn] using h
        have hskip : ¬ (comp = [] ∨ comp = ['.']) := by
          simp only [isName, decide_eq_true_eq] at hn
          exact fun hc => hc.elim hn.1 hn.2.1
        have hstep : stepComponent rooted cur comp = comp :: cur := by
          simp [stepComponent, hskip, hdd]
        have hsuf : (comp :: cur).isSuffixOf
            (rest.foldl (stepComponent rooted) (comp :: cur)) = true := by
          rw [List.isSuffixOf_iff_suffix]
          exact suffix_foldl_step rooted rest (comp :: cur) hrest
        simp only [walkReaches, List.foldl_cons, hstep, hsuf, Bool.true_eq_false, and_false,
          if_false]
        exact ih true _ hrest
      · have hnn : isName comp = false := by simpa using hn
        have hrest : walksBackFrom seen rest = false := by
          simpa [walksBackFrom, hdd, hnn] using h
        simp only [walkReaches, hnn, Bool.false_eq_true, false_and, if_false, List.foldl_cons]
        exact ih seen _ hrest

theorem opensAsWritten_of_plainDir {d : Str} (h : plainDir d) : opensAsWritten d = true := by
  unfold opensAsWritten cleanedDir
  simp only [Bool.and_eq_true, decide_eq_true_eq]
  exact ⟨h.1, walkReaches_of_noStepBack _ _ false [] h.2⟩

theorem List_cases (m : Storage) (fs : FS) (hr : fs.root = m.dir)
    (hinv : fs.dirExists = false → fs.entries = [])
    (hne : ∀ e ∈ fs.entries.map Prod.fst, e ≠ []) :
    m.List fs =
      .ok (if opensAsWritten m.dir = true then listed m (fs.entries.map Prod.fst) else []) := by
  unfold Storage.List osReaddirnames
  cases ho : opensAsWritten m.dir with
  | false => simp [osIsNotExist]
  | true =>
    cases hd : fs.dirExists with
    | false => simp [hr, hinv hd, osIsNotExist, listed]
    | true => simp [hr, listLoop_eq m _ hne]

theorem List_eq (m : Storage) (fs : FS) (hr : fs.root = m.dir) (hdir : plainDir m.dir)
    (hinv : fs.dirExists = false → fs.entries = [])
    (hne : ∀ e ∈ fs.entries.map Prod.fst, e ≠ []) :
    m.List fs = .ok (listed m (fs.entries.map Prod.fst)) := by
  rw [List_cases m fs hr hinv hne, opensAsWritten_of_plainDir hdir]
  rfl

theorem nameFromPath_of_isContextEntry (m : Storage) (e : Str) (hsep : separator ∉ e)
    (h : isContextEntry e = true) : m.nameFromPath e ++ hclExt = e := by
  simp only [isContextEntry, Bool.and_eq_true] at h
  obtain ⟨r, rfl⟩ := (hasSuffix_iff e hclExt).1 h.2
  have hr : separator ∉ r := fun hm => hsep (List.mem_append_left _ hm)
  rw [nameFromPath_hcl m r hr]

theorem isContextEntry_hcl {n : Str} (hn : validName n) : isContextEntry (n ++ hclExt) = true := by
  obtain ⟨h1, h2, _⟩ := hn
  simp only [isContextEntry, Bool.and_eq_true, decide_eq_true_eq]
  refine ⟨?_, (hasSuffix_iff _ _).2 ⟨n, rfl⟩⟩
  cases n with
  | nil => exact absurd rfl h1
  | cons c cs => simpa using h2

theorem isContextEntry_default : isContextEntry defaultEntry = false := by decide

theorem keys_erase (k : Str) (es : List (Str × Node)) :
    (eraseEntry k es).map Prod.fst = (es.map Prod.fst).filter (fun e => decide (e ≠ k)) := by
  induction es with
  | nil => rfl
  | cons p es ih =>
    obtain ⟨k', v'⟩ := p
    by_cases h : k' = k
    · simpa [eraseEntry, List.filter_cons, h] using ih
    · simpa [eraseEntry, List.filter_cons, h] using ih

theorem listed_erase_default (m : Storage) (es : List (Str × Node)) :
    listed m ((eraseEntry defaultEntry es).map Prod.fst) = listed m (es.map Prod.fst) := by
  unfold listed
  rw [keys_erase, List.filter_filter]
  congr 1
  apply List.filter_congr
  intro e _
  by_cases h : e = defaultEntry
  · subst h; simp [isContextEntry_default]
  · simp [h]

/-! ## Lemmas on sequences of `Set` calls -/

theorem storeState_put {m : Storage} {fs : FS} (hs : StoreState m fs) {k : Str} {v : Node}
    (hk : validEntry k) (hl : linkNamesContext m (k, v) = true) :
    StoreState m { fs with dirExists := true, entries := putEntry k v fs.entries } := by
  obtain ⟨h1, _, h3, h4, h5⟩ := hs
  refine ⟨h1, by simp, nodup_keys_put v h3, ?_, ?_⟩
  · intro p hp
    rcases mem_put hp with rfl | hp
    · exact hk
    · exact h4 p hp
  · intro p hp
    rcases mem_put hp with rfl | hp
    · exact hl
    · exact h5 p hp

theorem storeState_erase {m : Storage} {fs : FS} (hs : StoreState m fs) (k : Str) :
    StoreState m { fs with entries := eraseEntry k fs.entries } := by
  obtain ⟨h1, h2, h3, h4, h5⟩ := hs
  refine ⟨h1, ?_, nodup_keys_erase k h3, ?_, ?_⟩
  · intro hd
    simp [h2 hd, eraseEntry]
  · intro p hp
    exact h4 p (mem_erase.1 hp).1
  · intro p hp
    exact h5 p (mem_erase.1 hp).1

theorem storeState_afterSet {m : Storage} {fs : FS} (hs : StoreState m fs) (n : Str)
    (hn : validName n) :
    StoreState m { fs with dirExists := true, entries := indicatorAfterSet m n fs } := by
  have hfile : linkNamesContext m (defaultEntry, Node.file n) = true := rfl
  have hlink : linkNamesContext m (defaultEntry, Node.link (m.configPath n)) = true := by
    simp [linkNamesContext, nameFromPath_configPath m m n hn.2.2, hn.1]
  unfold indicatorAfterSet
  cases m.noSymlink with
  | true => exact storeState_put hs validEntry_default hfile
  | false =>
    cases fs.symlinks with
    | unsupported =>
      exact storeState_put (storeState_erase hs defaultEntry) validEntry_default hfile
    | works =>
      exact storeState_put (storeState_erase hs defaultEntry) validEntry_default hlink
    | spuriousError =>
      exact storeState_put (storeState_erase hs defaultEntry) validEntry_default hlink

theorem storeState_Set {Config : Type} (codec : Codec Config) (m : Storage) (n : Str)
    (c : Config) (fs : FS) (hs : StoreState m fs) (hn : validName n) {data : Str}
    (henc : codec.encode c = some data) : StoreState m (m.Set codec n c fs).2 := by
  rw [Set_eq codec m n c fs hs hn henc]
  have h3 : StoreState m
      { fs with dirExists := true,
                entries := putEntry (n ++ hclExt) (.file data) fs.entries } :=
    storeState_put hs (validEntry_hcl hn.2.2) rfl
  unfold entriesAfterSet
  by_cases h0 : indicatorName m fs.entries = []
  · simp only [h0, if_true]
    exact storeState_afterSet h3 n hn
  · simp only [h0, if_false]
    exact h3

theorem erase_default_Set {Config : Type} (codec : Codec Config) (m : Storage) (n : Str)
    (c : Config) (fs : FS) (hs : StoreState m fs) (hn : validName n) {data : Str}
    (henc : codec.encode c = some data) :
    eraseEntry defaultEntry (m.Set codec n c fs).2.entries =
      putEntry (n ++ hclExt) (.file data) (eraseEntry defaultEntry fs.entries) := by
  rw [Set_eq codec m n c fs hs hn henc]
  simp only [entriesAfterSet]
  by_cases h0 : indicatorName m fs.entries = []
  · simp only [h0, if_true, erase_default_afterSet, erase_put_ne (hcl_ne_default hn)]
  · simp only [h0, if_false, erase_put_ne (hcl_ne_default hn)]

theorem listed_hcl (m : Storage) (names : List Str) (h : ∀ n ∈ names, validName n) :
    listed m (names.map (fun n => n ++ hclExt)) = names := by
  induction names with
  | nil => rfl
  | cons n rest ih =>
    have hn := h n (List.mem_cons_self _ _)
    have hrest : ∀ k ∈ rest, validName k := fun k hk => h k (List.mem_cons_of_mem _ hk)
    have ih' := ih hrest
    unfold listed at ih' ⊢
    simp only [List.map_cons, List.filter_cons, isContextEntry_hcl hn, if_true,
      nameFromPath_hcl m n hn.2.2, ih']

theorem runSets_contexts {Config : Type} (codec : Codec Config) (m : Storage)
    (calls : List (Str × Config)) :
    ∀ (fs fs' : FS) (done : List Str), StoreState m fs →
      (eraseEntry defaultEntry fs.entries).map Prod.fst = done.map (fun n => n ++ hclExt) →
      (∀ p ∈ calls, validName p.1) → (done ++ calls.map Prod.fst).Nodup →
      runSets codec m calls fs = some fs' →
      StoreState m fs' ∧
      (eraseEntry defaultEntry fs'.entries).map Prod.fst =
        (done ++ calls.map Prod.fst).map (fun n => n ++ hclExt) := by
  induction calls with
  | nil =>
    intro fs fs' done hs hk _ _ hrun
    simp only [runSets, Option.some.injEq] at hrun
    subst hrun
    exact ⟨hs, by simpa using hk⟩
  | cons call rest ih =>
    intro fs fs' done hs hk hvalid hnodup hrun
    obtain ⟨n, c⟩ := call
    have hn : validName n := hvalid (n, c) (List.mem_cons_self _ _)
    cases henc : codec.encode c with
    | none =>
      have hfail := Set_encode_fails codec m n c fs hs hn henc
      unfold runSets at hrun
      revert hrun
      cases hres : m.Set codec n c fs with
      | mk err fs1 =>
        rw [hres] at hfail
        simp only at hfail
        subst hfail
        simp
    | some data =>
      have hs1 := storeState_Set codec m n c fs hs hn henc
      have he1 := erase_default_Set codec m n c fs hs hn henc
      have hres := Set_eq codec m n c fs hs hn henc
      have hfresh : lookupEntry (n ++ hclExt) (eraseEntry defaultEntry fs.entries) = none := by
        rw [lookup_eq_none_iff, hk]
        intro hmem
        obtain ⟨k, hkd, hkeq⟩ := List.mem_map.1 hmem
        have hkn : k = n := hcl_inj.1 hkeq
        subst hkn
        have := List.nodup_append.1 hnodup
        exact this.2.2 hkd (by rw [List.map_cons]; exact List.mem_cons_self _ _)
      rw [put_of_lookup_none _ hfresh] at he1
      have hk1 : (eraseEntry defaultEntry (m.Set codec n c fs).2.entries).map Prod.fst =
          (done ++ [n]).map (fun n => n ++ hclExt) := by
        rw [he1]; simp [hk]
      have hrun1 : runSets codec m rest (m.Set codec n c fs).2 = some fs' := by
        unfold runSets at hrun
        rw [hres] at hrun ⊢
        exact hrun
      have := ih (m.Set codec n c fs).2 fs' (done ++ [n]) hs1 hk1
        (fun p hp => hvalid p (List.mem_cons_of_mem _ hp))
        (by simpa using hnodup) hrun1
      simpa using this

/-! ## Store states are closed under the store's operations -/

theorem entryOf_valid {root p e : Str} (h : entryOf root p = some e) : validEntry e := by
  unfold entryOf at h
  cases hs : stripPrefix (dirPrefix root) p with
  | none => simp [hs] at h
  | some e' =>
    simp only [hs] at h
    by_cases hv : validEntry e'
    · simp only [hv, if_true, Option.some.injEq] at h
      exact h ▸ hv
    · simp [hv] at h

theorem targetEntry_valid {root t e : Str} (h : targetEntry root t = some e) : validEntry e := by
  unfold targetEntry at h
  by_cases h1 : t.head? = some separator
  · simp only [h1, if_true] at h
    by_cases h2 : root.head? = some separator
    · simp only [h2, if_true] at h
      exact entryOf_valid h
    · simp [h2] at h
  · simp only [h1, if_false] at h
    by_cases hv : validEntry t
    · simp only [hv, if_true, Option.some.injEq] at h
      exact h ▸ hv
    · simp [hv] at h

theorem resolve_valid (fs : FS) (k : Nat) :
    ∀ e, validEntry e →
      (∀ e' d, resolve fs k e = .file e' d → validEntry e') ∧
      (∀ e', resolve fs k e = .absent e' → validEntry e') := by
  induction k with
  | zero =>
    intro e _
    simp [resolve]
  | succ k ih =>
    intro e he
    cases h : lookupEntry e fs.entries with
    | none =>
      simp only [resolve, h]
      refine ⟨by simp, ?_⟩
      intro e' h'
      cases h'
      exact he
    | some v =>
      cases v with
      | file d =>
        simp only [resolve, h]
        refine ⟨?_, by simp⟩
        intro e' d' h'
        cases h'
        exact he
      | link t =>
        cases ht : targetEntry fs.root t with
        | none => simp [resolve, h, ht]
        | some e1 =>
          simp only [resolve, h, ht]
          exact ih e1 (targetEntry_valid ht)

theorem storeState_put_existing {m : Storage} {fs : FS} (hs : StoreState m fs)
    (hd : fs.dirExists = true) {k : Str} {v : Node}
    (hk : validEntry k) (hl : linkNamesContext m (k, v) = true) :
    StoreState m { fs with entries := putEntry k v fs.entries } := by
  have := storeState_put hs hk hl
  rw [← hd] at this
  exact this

theorem linkNamesContext_file (m : Storage) (e d : Str) :
    linkNamesContext m (e, Node.file d) = true := rfl

theorem openTrunc_spec {m : Storage} {fs : FS} (hs : StoreState m fs) (path : Str) :
    StoreState m (openTrunc fs path).2 ∧
    ∀ h, (openTrunc fs path).1 = .ok h →
      validEntry h ∧ (openTrunc fs path).2.dirExists = true := by
  cases he : entryOf fs.root path with
  | none =>
    simp only [openTrunc, he]
    exact ⟨hs, by simp⟩
  | some e =>
    have hv := entryOf_valid he
    cases hd : fs.dirExists with
    | false =>
      simp only [openTrunc, he, hd, if_true]
      exact ⟨hs, by simp⟩
    | true =>
      have hres := resolve_valid fs maxHops e hv
      cases hr : resolve fs maxHops e with
      | file e' d =>
        have hv' := hres.1 e' d hr
        simp only [openTrunc, he, hd, hr, Bool.true_eq_false, if_false]
        refine ⟨storeState_put hs hv' (linkNamesContext_file m _ _), ?_⟩
        intro h hh
        cases hh
        exact ⟨hv', trivial⟩
      | absent e' =>
        have hv' := hres.2 e' hr
        simp only [openTrunc, he, hd, hr, Bool.true_eq_false, if_false]
        refine ⟨storeState_put hs hv' (linkNamesContext_file m _ _), ?_⟩
        intro h hh
        cases hh
        exact ⟨hv', trivial⟩
      | outside =>
        simp only [openTrunc, he, hd, hr, Bool.true_eq_false, if_false]
        exact ⟨hs, by simp⟩
      | loop =>
        simp only [openTrunc, he, hd, hr, Bool.true_eq_false, if_false]
        exact ⟨hs, by simp⟩

theorem storeState_ioutilWriteFile {m : Storage} {fs : FS} (hs : StoreState m fs)
    (path data : Str) : StoreState m (ioutilWriteFile fs path data).2 := by
  have hspec := openTrunc_spec hs path
  unfold ioutilWriteFile
  cases ho : openTrunc fs path with
  | mk r fs1 =>
    rw [ho] at hspec
    cases r with
    | error e => exact hspec.1
    | ok h =>
      obtain ⟨hv, hd⟩ := hspec.2 h rfl
      exact storeState_put_existing hspec.1 hd hv rfl

theorem storeState_osRemove {m : Storage} {fs : FS} (hs : StoreState m fs) (path : Str) :
    StoreState m (osRemove fs path).2 := by
  cases he : entryOf fs.root path with
  | none => simp only [osRemove, he]; exact hs
  | some e =>
    cases hl : lookupEntry e fs.entries with
    | none => simp only [osRemove, he, hl]; exact hs
    | some v => simp only [osRemove, he, hl]; exact storeState_erase hs e

theorem storeState_osSymlink {m : Storage} {fs : FS} (hs : StoreState m fs)
    (target linkpath : Str) (hlink : entryOf fs.root linkpath = some defaultEntry)
    (hname : m.nameFromPath target ≠ []) :
    StoreState m (osSymlink fs target linkpath).2 := by
  have hl : linkNamesContext m (defaultEntry, Node.link target) = true := by
    simp [linkNamesContext, hname]
  have hput := storeState_put hs validEntry_default hl
  cases hd : fs.dirExists with
  | false => simp only [osSymlink, hlink, hd, if_true]; exact hs
  | true =>
    cases hlk : lookupEntry defaultEntry fs.entries with
    | some v => simp only [osSymlink, hlink, hd, hlk, Bool.true_eq_false, if_false]; exact hs
    | none =>
      cases hsl : fs.symlinks with
      | works =>
        simp only [osSymlink, hlink, hd, hlk, hsl, Bool.true_eq_false, if_false]
        simpa [hsl] using hput
      | unsupported =>
        simp only [osSymlink, hlink, hd, hlk, hsl, Bool.true_eq_false, if_false]
        exact hs
      | spuriousError =>
        simp only [osSymlink, hlink, hd, hlk, hsl, Bool.true_eq_false, if_false]
        simpa [hsl] using hput

theorem osRemove_root (fs : FS) (path : Str) : (osRemove fs path).2.root = fs.root := by
  cases he : entryOf fs.root path with
  | none => simp only [osRemove, he]
  | some e => cases hl : lookupEntry e fs.entries <;> simp only [osRemove, he, hl]

theorem storeState_createSymlink {m : Storage} {fs : FS} (hs : StoreState m fs) (n : Str)
    (hn : validName n) :
    StoreState m (m.createSymlink (m.configPath n) m.defaultPath fs).2 := by
  have h1 := storeState_osRemove hs m.defaultPath
  have hroot := osRemove_root fs m.defaultPath
  unfold Storage.createSymlink
  generalize osRemove fs m.defaultPath = r at h1 hroot ⊢
  obtain ⟨err0, fs1⟩ := r
  simp only at h1 hroot ⊢
  split
  · exact h1
  · have hlink : entryOf fs1.root m.defaultPath = some defaultEntry := by
      rw [hroot, hs.1]; exact entryOf_defaultPath m
    have h2 := storeState_osSymlink h1 (m.configPath n) m.defaultPath hlink
      (by rw [nameFromPath_configPath m m n hn.2.2]; exact hn.1)
    generalize osSymlink fs1 (m.configPath n) m.defaultPath = r2 at h2 ⊢
    obtain ⟨err, fs2⟩ := r2
    simp only at h2 ⊢
    split
    · exact h2
    · split <;> exact h2

theorem storeState_SetDefault {m : Storage} {fs : FS} (hs : StoreState m fs) (n : Str)
    (hn : validName n) : StoreState m (m.SetDefault n fs).2 := by
  have h1 := storeState_createSymlink hs n hn
  unfold Storage.SetDefault
  simp only
  split
  · exact hs
  · split
    · generalize m.createSymlink (m.configPath n) m.defaultPath fs = r at h1 ⊢
      obtain ⟨err, fs1⟩ := r
      cases err with
      | none => exact h1
      | some e => exact storeState_ioutilWriteFile h1 _ _
    · exact storeState_ioutilWriteFile hs _ _

theorem storeState_UnsetDefault {m : Storage} {fs : FS} (hs : StoreState m fs) :
    StoreState m (m.UnsetDefault fs).2 := by
  rw [UnsetDefault_eq m fs hs.1]
  exact storeState_erase hs _

theorem storeState_Delete {m : Storage} {fs : FS} (hs : StoreState m fs) (n : Str)
    (hn : validName n) : StoreState m (m.Delete n fs).2 := by
  rw [Delete_eq m n fs hs.1 hn]
  unfold entriesAfterDelete
  by_cases h0 : indicatorName m fs.entries = n
  · simp only [h0, if_true]
    exact storeState_erase (storeState_erase hs _) _
  · simp only [h0, if_false]
    exact storeState_erase hs _

theorem storeState_Set_always {Config : Type} (codec : Codec Config) {m : Storage} {fs : FS}
    (hs : StoreState m fs) (n : Str) (c : Config) (hn : validName n) :
    StoreState m (m.Set codec n c fs).2 := by
  cases henc : codec.encode c with
  | some data => exact storeState_Set codec m n c fs hs hn henc
  | none =>
    have h1 : StoreState m ({ fs with dirExists := true } : FS) :=
      ⟨hs.1, by simp, hs.2.2.1, hs.2.2.2.1, hs.2.2.2.2⟩
    have hdir : dirPrefix (filepathDir (m.configPath n)) = dirPrefix fs.root := by
      rw [hs.1]; exact dirPrefix_filepathDir_join _ _ (sep_not_mem_hcl hn.2.2)
    have h2 := (openTrunc_spec h1 (m.configPath n)).1
    unfold Storage.Set
    simp only [osMkdirAll, hdir, if_true, osCreate]
    cases ho : openTrunc { fs with dirExists := true } (m.configPath n) with
    | mk r fs2 =>
      rw [ho] at h2
      cases r with
      | error e => exact h2
      | ok h => simpa [writeTo, henc] using h2

theorem moveEntry_of_eq {old new : Str} {p : Str × Node} (h : p.1 = old) :
    moveEntry old new p = (new, p.2) := by
  simp [moveEntry, h]

theorem moveEntry_of_ne {old new : Str} {p : Str × Node} (h : p.1 ≠ old) :
    moveEntry old new p = p := by
  simp [moveEntry, h]

theorem storeState_renameEntry {m : Storage} {fs : FS} (hs : StoreState m fs) {eo en : Str}
    (hen : validEntry en) (heo : eo ≠ defaultEntry) :
    StoreState m { fs with entries := renameEntry eo en fs.entries } := by
  obtain ⟨h1, h2, h3, h4, h5⟩ := hs
  refine ⟨h1, ?_, ?_, ?_, ?_⟩
  · intro hd
    simp [h2 hd, renameEntry, eraseEntry]
  · have hkeys : (renameEntry eo en fs.entries).map Prod.fst =
        ((eraseEntry en fs.entries).map Prod.fst).map (fun k => if k = eo then en else k) := by
      simp only [renameEntry, List.map_map]
      apply List.map_congr_left
      intro p _
      by_cases hp : p.1 = eo
      · simp [moveEntry, hp]
      · simp [moveEntry, hp]
    simp only [hkeys]
    apply List.Nodup.map_on _ (nodup_keys_erase en h3)
    intro x hx y hy hxy
    have hxn : x ≠ en := by
      obtain ⟨p, hp, rfl⟩ := List.mem_map.1 hx
      exact (mem_erase.1 hp).2
    have hyn : y ≠ en := by
      obtain ⟨p, hp, rfl⟩ := List.mem_map.1 hy
      exact (mem_erase.1 hp).2
    by_cases hxe : x = eo
    · by_cases hye : y = eo
      · rw [hxe, hye]
      · simp only [hxe, hye, if_true, if_false] at hxy
        exact absurd hxy.symm hyn
    · by_cases hye : y = eo
      · simp only [hxe, hye, if_true, if_false] at hxy
        exact absurd hxy hxn
      · simpa [hxe, hye] using hxy
  · intro p' hp'
    simp only [renameEntry, List.mem_map] at hp'
    obtain ⟨p, hp, rfl⟩ := hp'
    by_cases hpe : p.1 = eo
    · rw [moveEntry_of_eq hpe]
      exact hen
    · rw [moveEntry_of_ne hpe]
      exact h4 p (mem_erase.1 hp).1
  · intro p' hp'
    simp only [renameEntry, List.mem_map] at hp'
    obtain ⟨p, hp, rfl⟩ := hp'
    have hmem := (mem_erase.1 hp).1
    by_cases hpe : p.1 = eo
    · rw [moveEntry_of_eq hpe]
      have := h5 p hmem
      obtain ⟨k, v⟩ := p
      cases v with
      | file d => rfl
      | link t =>
        simp only at hpe
        simp [linkNamesContext, hpe, heo] at this
    · rw [moveEntry_of_ne hpe]
      exact h5 p hmem

theorem storeState_osRename {m : Storage} {fs : FS} (hs : StoreState m fs)
    (oldpath newpath : Str) (hold : entryOf fs.root oldpath ≠ some defaultEntry) :
    StoreState m (osRename fs oldpath newpath).2 := by
  unfold osRename
  split
  · next eo en heo hen =>
    split
    · exact hs
    · split
      · exact hs
      · exact storeState_renameEntry hs (entryOf_valid hen) (fun h => hold (by rw [heo, h]))
  · exact hs

theorem Delete_root (m : Storage) (n : Str) (fs : FS) (hr : fs.root = m.dir)
    (hn : validName n) : (m.Delete n fs).2.root = fs.root := by
  rw [Delete_eq m n fs hr hn]

theorem osRename_root (fs : FS) (oldpath newpath : Str) :
    (osRename fs oldpath newpath).2.root = fs.root := by
  unfold osRename
  split
  · split
    · rfl
    · split <;> rfl
  · rfl

theorem storeState_Rename {m : Storage} {fs : FS} (hs : StoreState m fs)
    (fromName toName : Str) (hf : validName fromName) (ht : validName toName) :
    StoreState m (m.Rename fromName toName fs).2 := by
  have h1 := storeState_Delete hs toName ht
  have hroot1 := Delete_root m toName fs hs.1 ht
  unfold Storage.Rename
  simp only
  split
  · split <;> exact hs
  · generalize m.Delete toName fs = r at h1 hroot1 ⊢
    obtain ⟨err, fs1⟩ := r
    simp only at h1 hroot1
    cases err with
    | some e => exact h1
    | none =>
      simp only
      have hold : entryOf fs1.root (m.configPath fromName) ≠ some defaultEntry := by
        rw [hroot1, hs.1, entryOf_configPath m fromName hf.2.2]
        intro h
        exact hcl_ne_default hf (Option.some.inj h)
      have h2 := storeState_osRename h1 (m.configPath fromName) (m.configPath toName) hold
      generalize osRename fs1 (m.configPath fromName) (m.configPath toName) = r2 at h2 ⊢
      obtain ⟨err2, fs2⟩ := r2
      simp only at h2
      cases err2 with
      | some e => exact h2
      | none =>
        simp only
        split
        · exact h2
        · split
          · exact storeState_SetDefault h2 toName ht
          · exact h2

/-- The store states are exactly what the store can reach: the directory
that is empty or does not exist yet is a store state, and every mutating
operation called with valid names leads from a store state to a store state,
whatever it returns. -/
theorem storeState_closed (m : Storage) :
    (∀ dirExists sl, StoreState m ⟨m.dir, dirExists, sl, []⟩) ∧
    (∀ fs, StoreState m fs →
      (∀ (Config : Type) (codec : Codec Config) n c, validName n →
        StoreState m (m.Set codec n c fs).2) ∧
      (∀ n, validName n → StoreState m (m.Delete n fs).2) ∧
      (∀ a b, validName a → validName b → StoreState m (m.Rename a b fs).2) ∧
      (∀ n, validName n → StoreState m (m.SetDefault n fs).2) ∧
      StoreState m (m.UnsetDefault fs).2) := by
  refine ⟨?_, ?_⟩
  · intro d sl
    exact ⟨rfl, fun _ => rfl, List.nodup_nil, by simp, by simp⟩
  · intro fs hs
    exact ⟨fun _ codec n c hn => storeState_Set_always codec hs n c hn,
      fun n hn => storeState_Delete hs n hn,
      fun a b ha hb => storeState_Rename hs a b ha hb,
      fun n hn => storeState_SetDefault hs n hn,
      storeState_UnsetDefault hs⟩

/-! ## `Rename` and `SetDefault` away from the stale-link case -/

theorem lookup_rename_new {eo en : Str} (hne : eo ≠ en) (es : List (Str × Node)) :
    lookupEntry en (renameEntry eo en es) = lookupEntry eo es := by
  have key : ∀ L : List (Str × Node), (∀ p ∈ L, p.1 ≠ en) →
      lookupEntry en (L.map (moveEntry eo en)) = lookupEntry eo L := by
    intro L
    induction L with
    | nil => intro _; rfl
    | cons p rest ih =>
      intro h
      obtain ⟨k, v⟩ := p
      have hk : k ≠ en := h (k, v) (List.mem_cons_self _ _)
      have ih' := ih (fun q hq => h q (List.mem_cons_of_mem _ hq))
      by_cases hko : k = eo
      · rw [List.map_cons, moveEntry_of_eq (by exact hko)]
        simp [lookupEntry, hko]
      · rw [List.map_cons, moveEntry_of_ne (by exact hko)]
        simp [lookupEntry, hko, hk, ih']
  unfold renameEntry
  rw [key _ (fun p hp => (mem_erase.1 hp).2), lookup_erase_ne hne]

theorem lookup_rename_old {eo en : Str} (hne : eo ≠ en) (es : List (Str × Node)) :
    lookupEntry eo (renameEntry eo en es) = none := by
  unfold renameEntry
  induction eraseEntry en es with
  | nil => rfl
  | cons p rest ih =>
    obtain ⟨k, v⟩ := p
    by_cases hko : k = eo
    · rw [List.map_cons, moveEntry_of_eq (by exact hko)]
      simp [lookupEntry, Ne.symm hne, ih]
    · rw [List.map_cons, moveEntry_of_ne (by exact hko)]
      simp [lookupEntry, hko, ih]

theorem lookup_rename_other {eo en k : Str} (h1 : k ≠ eo) (h2 : k ≠ en)
    (es : List (Str × Node)) :
    lookupEntry k (renameEntry eo en es) = lookupEntry k es := by
  have key : ∀ L : List (Str × Node),
      lookupEntry k (L.map (moveEntry eo en)) = lookupEntry k L := by
    intro L
    induction L with
    | nil => rfl
    | cons p rest ih =>
      obtain ⟨k', v⟩ := p
      by_cases hko : k' = eo
      · rw [List.map_cons, moveEntry_of_eq (by exact hko)]
        subst hko
        simp [lookupEntry, Ne.symm h1, Ne.symm h2, ih]
      · rw [List.map_cons, moveEntry_of_ne (by exact hko)]
        by_cases hkk : k' = k
        · simp [lookupEntry, hkk]
        · simp [lookupEntry, hkk, ih]
  unfold renameEntry
  rw [key, lookup_erase_ne h2]

theorem osRename_eq {fs : FS} {oldpath newpath eo en : Str} {v : Node}
    (ho : entryOf fs.root oldpath = some eo) (hn : entryOf fs.root newpath = some en)
    (hv : lookupEntry eo fs.entries = some v) (hne : eo ≠ en) :
    osRename fs oldpath newpath = (none, { fs with entries := renameEntry eo en fs.entries }) := by
  simp [osRename, ho, hn, hv, hne]

theorem Rename_spec (m : Storage) (fromName toName : Str) (fs : FS) (hs : StoreState m fs)
    (hf : validName fromName) (ht : validName toName) (hne : fromName ≠ toName) {c : Str}
    (hex : lookupEntry (fromName ++ hclExt) fs.entries = some (.file c))
    (hok : m.noSymlink = true → indicatorName m fs.entries = fromName →
      ∀ t, lookupEntry defaultEntry fs.entries ≠ some (.link t)) :
    (m.Rename fromName toName fs).1 = none ∧
    (m.Rename fromName toName fs).2.root = m.dir ∧
    indicatorName m (m.Rename fromName toName fs).2.entries =
      defaultAfterRename fromName toName (indicatorName m fs.entries) ∧
    lookupEntry (fromName ++ hclExt) (m.Rename fromName toName fs).2.entries = none ∧
    lookupEntry (toName ++ hclExt) (m.Rename fromName toName fs).2.entries = some (.file c) := by
  have hr := hs.1
  have hfd := hcl_ne_default hf
  have htd := hcl_ne_default ht
  have hft : fromName ++ hclExt ≠ toName ++ hclExt := fun h => hne (hcl_inj.1 h)
  have hcf : entryOf fs.root (m.configPath fromName) = some (fromName ++ hclExt) := by
    rw [hr]; exact entryOf_configPath m fromName hf.2.2
  have hct : entryOf fs.root (m.configPath toName) = some (toName ++ hclExt) := by
    rw [hr]; exact entryOf_configPath m toName ht.2.2
  have hdir := hs.dirExists_of_lookup hex
  -- the entries after `Delete(toName)`
  have hex1 : lookupEntry (fromName ++ hclExt) (entriesAfterDelete m toName fs.entries)
      = some (.file c) := by
    unfold entriesAfterDelete
    by_cases h0 : indicatorName m fs.entries = toName
    · simp [h0, lookup_erase_ne hfd, lookup_erase_ne hft, hex]
    · simp [h0, lookup_erase_ne hft, hex]
  have hind1 : indicatorName m (entriesAfterDelete m toName fs.entries) =
      if indicatorName m fs.entries = toName then [] else indicatorName m fs.entries := by
    unfold entriesAfterDelete
    by_cases h0 : indicatorName m fs.entries = toName
    · simp [h0, indicatorName_erase_default]
    · simp [h0, indicatorName_erase_ne m htd]
  have hind2 : indicatorName m
      (renameEntry (fromName ++ hclExt) (toName ++ hclExt)
        (entriesAfterDelete m toName fs.entries)) =
      if indicatorName m fs.entries = toName then [] else indicatorName m fs.entries := by
    rw [← hind1]
    simp only [indicatorName, lookup_rename_other (Ne.symm hfd) (Ne.symm htd)]
  unfold Storage.Rename
  simp only [osStat, hcf, resolve_file hex, Delete_eq m toName fs hr ht]
  rw [osRename_eq (by simpa using hcf) (by simpa using hct) hex1 hft]
  simp only
  rw [Default_eq m _ (by simpa using hr), hind2]
  by_cases hdf : indicatorName m fs.entries = fromName
  · have hnt : ¬ fromName = toName := hne
    simp only [hdf, hnt, if_false, if_true]
    have hlook2 : lookupEntry (toName ++ hclExt)
        (renameEntry (fromName ++ hclExt) (toName ++ hclExt)
          (entriesAfterDelete m toName fs.entries)) = some (.file c) := by
      rw [lookup_rename_new hft, hex1]
    have hd1 : lookupEntry defaultEntry
        (renameEntry (fromName ++ hclExt) (toName ++ hclExt)
          (entriesAfterDelete m toName fs.entries)) = lookupEntry defaultEntry fs.entries := by
      rw [lookup_rename_other (Ne.symm hfd) (Ne.symm htd)]
      simp [entriesAfterDelete, hdf, hnt, lookup_erase_ne (Ne.symm htd)]
    have hsd := SetDefault_eq m toName
      (FS.mk fs.root fs.dirExists fs.symlinks
        (renameEntry (fromName ++ hclExt) (toName ++ hclExt)
          (entriesAfterDelete m toName fs.entries)))
      hr ht.2.2 hlook2 hdir
      (by
        intro hns t
        simp only [hd1]
        exact hok hns hdf t)
    rw [hsd]
    refine ⟨rfl, hr, ?_, ?_, ?_⟩
    · simp [indicatorName_afterSet m toName _ ht.2.2, defaultAfterRename]
    · simp only [lookup_afterSet m toName _ hfd]
      exact lookup_rename_old hft _
    · simp only [lookup_afterSet m toName _ htd]
      exact hlook2
  · have hcond : ¬ ((if indicatorName m fs.entries = toName then []
        else indicatorName m fs.entries) = fromName) := by
      by_cases h0 : indicatorName m fs.entries = toName
      · simp only [h0, if_true]
        exact fun h => hf.1 h.symm
      · simp only [h0, if_false]
        exact hdf
    simp only [hcond, if_false]
    refine ⟨trivial, hr, ?_, lookup_rename_old hft _, ?_⟩
    · simp [hind2, defaultAfterRename, hdf]
    · rw [lookup_rename_new hft, hex1]

theorem Rename_observed {Config : Type} (codec : Codec Config) (m : Storage)
    (fromName toName : Str) (fs : FS) (hs : StoreState m fs)
    (hf : validName fromName) (ht : validName toName) (hne : fromName ≠ toName) {c : Str}
    (hex : lookupEntry (fromName ++ hclExt) fs.entries = some (.file c))
    (hok : m.noSymlink = true → indicatorName m fs.entries = fromName →
      ∀ t, lookupEntry defaultEntry fs.entries ≠ some (.link t)) :
    (m.Rename fromName toName fs).1 = none ∧
    (∀ before, m.Default fs = .ok before →
      m.Default (m.Rename fromName toName fs).2 =
        .ok (defaultAfterRename fromName toName before)) ∧
    m.Load codec fromName (m.Rename fromName toName fs).2 = .error .notExist ∧
    m.Load codec toName (m.Rename fromName toName fs).2 = m.Load codec fromName fs := by
  obtain ⟨h1, h2, h3, h4, h5⟩ := Rename_spec m fromName toName fs hs hf ht hne hex hok
  refine ⟨h1, ?_, ?_, ?_⟩
  · intro before hb
    rw [Default_eq m fs hs.1] at hb
    cases hb
    rw [Default_eq m _ h2, h3]
  · rw [Load_eq codec m fromName _ h2 hf.2.2 (by simp [h4]), h4]
  · rw [Load_eq codec m toName _ h2 ht.2.2 (by simp [h5]), h5,
      Load_eq codec m fromName fs hs.1 hf.2.2 (by simp [hex]), hex]

theorem SetDefault_missing (m : Storage) (n : Str) (fs : FS) (hr : fs.root = m.dir)
    (hn : separator ∉ n) (hex : lookupEntry (n ++ hclExt) fs.entries = none) :
    m.SetDefault n fs = (some .notExist, fs) := by
  have hc : entryOf fs.root (m.configPath n) = some (n ++ hclExt) := by
    rw [hr]; exact entryOf_configPath m n hn
  simp [Storage.SetDefault, osStat, hc, resolve_absent hex]

theorem SetDefault_frame (m : Storage) (n : Str) (fs : FS) (hs : StoreState m fs)
    (hn : validName n)
    (hok : m.noSymlink = true → ∀ t, lookupEntry defaultEntry fs.entries ≠ some (.link t)) :
    ∀ e, e ≠ defaultEntry →
      lookupEntry e (m.SetDefault n fs).2.entries = lookupEntry e fs.entries := by
  intro e he
  cases hex : lookupEntry (n ++ hclExt) fs.entries with
  | none => rw [SetDefault_missing m n fs hs.1 hn.2.2 hex]
  | some v =>
    cases v with
    | link t => exact absurd hex (hs.not_link (hcl_ne_default hn) t)
    | file c =>
      rw [SetDefault_eq m n fs hs.1 hn.2.2 hex (hs.dirExists_of_lookup hex) hok]
      exact lookup_afterSet m n fs he

theorem SetDefault_plain (m : Storage) (n : Str) (fs : FS) (hs : StoreState m fs)
    (hn : validName n) (hns : m.noSymlink = true) {c : Str}
    (hex : lookupEntry (n ++ hclExt) fs.entries = some (.file c))
    (hok : ∀ t, lookupEntry defaultEntry fs.entries ≠ some (.link t)) :
    (m.SetDefault n fs).1 = none ∧
    lookupEntry defaultEntry (m.SetDefault n fs).2.entries = some (.file n) ∧
    m.Default (m.SetDefault n fs).2 = .ok n := by
  rw [SetDefault_eq m n fs hs.1 hn.2.2 hex (hs.dirExists_of_lookup hex) (fun _ => hok)]
  refine ⟨rfl, ?_, ?_⟩
  · simp [indicatorAfterSet, hns, lookup_put_same]
  · rw [Default_eq m _ (by simpa using hs.1)]
    exact congrArg _ (indicatorName_afterSet m n fs hn.2.2)

theorem Set_succeeds {Config : Type} (codec : Codec Config) (m : Storage) (n : Str) (c : Config)
    (fs : FS) (hs : StoreState m fs) (hn : validName n) :
    (m.Set codec n c fs).1 = none ↔ (codec.encode c).isSome = true := by
  cases henc : codec.encode c with
  | none => simp [Set_encode_fails codec m n c fs hs hn henc]
  | some data => simp [Set_eq codec m n c fs hs hn henc]

/-! ## The claims -/

/-- C1: for every store state, valid name `n` and config `c`, in either
symlink mode: after `Set(n, c)` returns success, `Default()` returns `n` if
it returned the empty name before the call, and what it returned before the
call otherwise. -/
theorem Set_promotes_exactly_when_no_default {Config : Type} (codec : Codec Config)
    (m : Storage) (n : Str) (c : Config) (fs : FS)
    (hs : StoreState m fs) (hn : validName n) (hok : (m.Set codec n c fs).1 = none) :
    m.Default (m.Set codec n c fs).2 =
      if m.Default fs = .ok [] then .ok n else m.Default fs := by
  cases henc : codec.encode c with
  | none =>
    rw [Set_encode_fails codec m n c fs hs hn henc] at hok
    exact absurd hok (by simp)
  | some data =>
    rw [Set_eq codec m n c fs hs hn henc, Default_eq m _ (by simpa using hs.1),
      Default_eq m fs hs.1]
    simp only [entriesAfterSet]
    by_cases h0 : indicatorName m fs.entries = []
    · simp [h0, indicatorName_afterSet m n _ hn.2.2]
    · simp [h0, indicatorName_put_ne m (hcl_ne_default hn)]

/-- C1 at work: on the directory that does not exist yet `Set("a", x=1)`
makes `a` the default, and on a store whose default is `a`, `Set("c", z)`
leaves it at `a`. -/
theorem Set_promotes_exactly_when_no_default_witness :
    (linkStore.Default (linkStore.Set bytesCodec "a".toList "x=1".toList noDir).2 = .ok "a".toList) ∧
    (plainStore.Default (plainStore.Set bytesCodec "c".toList "z".toList abLinkA).2
      = .ok "a".toList) :=
  ⟨Set_promotes_exactly_when_no_default bytesCodec linkStore "a".toList "x=1".toList noDir
      (by decide) (by decide) (by decide),
   Set_promotes_exactly_when_no_default bytesCodec plainStore "c".toList "z".toList abLinkA
      (by decide) (by decide) (by decide)⟩

/-- C2: for every store state, valid name `n` and config `c` the codec
round-trips, in either symlink mode: after a successful `Set(n, c)`,
`Load(n)` yields `c`, and the context file holds exactly the bytes the codec
wrote, whether or not `Set` went on to promote `n` to default. -/
theorem Set_then_Load_round_trip {Config : Type} (codec : Codec Config)
    (m : Storage) (n : Str) (c : Config) (fs : FS)
    (hs : StoreState m fs) (hn : validName n)
    (hrt : ∀ data, codec.encode c = some data → codec.decode data = some c)
    (hok : (m.Set codec n c fs).1 = none) :
    m.Load codec n (m.Set codec n c fs).2 = .ok c ∧
    ∀ data, codec.encode c = some data →
      lookupEntry (n ++ hclExt) (m.Set codec n c fs).2.entries = some (.file data) := by
  cases henc : codec.encode c with
  | none =>
    rw [Set_encode_fails codec m n c fs hs hn henc] at hok
    exact absurd hok (by simp)
  | some data =>
    have hnd := hcl_ne_default hn
    have hfile : lookupEntry (n ++ hclExt)
        (m.Set codec n c fs).2.entries = some (.file data) := by
      rw [Set_eq codec m n c fs hs hn henc]
      simp only [entriesAfterSet]
      by_cases h0 : indicatorName m fs.entries = []
      · simp [h0, lookup_afterSet m n _ hnd, lookup_put_same]
      · simp [h0, lookup_put_same]
    have hroot : (m.Set codec n c fs).2.root = m.dir := by
      rw [Set_eq codec m n c fs hs hn henc]; exact hs.1
    refine ⟨?_, ?_⟩
    · rw [Load_eq codec m n _ hroot hn.2.2 (by rw [hfile]; simp), hfile]
      simp [hrt data henc]
    · intro data' h'
      cases h'
      exact hfile

/-- C2 at work: writing `x=1` as context `a` into the directory that does not
exist yet, which promotes `a` to default, and loading it back. -/
theorem Set_then_Load_round_trip_witness :
    linkStore.Load bytesCodec "a".toList
      (linkStore.Set bytesCodec "a".toList "x=1".toList noDir).2 = .ok "x=1".toList :=
  (Set_then_Load_round_trip bytesCodec linkStore "a".toList "x=1".toList noDir
    (by decide) (by decide) (by intro d h; cases h; rfl) (by decide)).1

/-- C6: for a store whose directory path is not empty and never leaves with
`..` a directory it entered by name (every non-empty clean path), over any
directory whose entry names are non-empty and free of separators, `List()`
returns, in directory order, exactly `nameFromPath(e)` for the entries `e`
whose first byte is not `_` and which end in `.hcl`; for each such entry the
returned name followed by `.hcl` is the entry itself; so every returned name
`r` comes from an entry `r.hcl` that does not begin with `_`, and neither
`_x.hcl` nor `notes.txt` contributes a name. -/
theorem List_is_filter_then_map (m : Storage) (fs : FS) (hdir : plainDir m.dir)
    (hr : fs.root = m.dir) (hinv : fs.dirExists = false → fs.entries = [])
    (hnames : ∀ e ∈ fs.entries.map Prod.fst, e ≠ [] ∧ separator ∉ e) :
    m.List fs = .ok (((fs.entries.map Prod.fst).filter
      (fun e => decide (e.head? ≠ some '_') && hasSuffix e hclExt)).map m.nameFromPath) ∧
    (∀ e ∈ fs.entries.map Prod.fst, e.head? ≠ some '_' → hasSuffix e hclExt = true →
      m.nameFromPath e ++ hclExt = e) ∧
    (∀ ns, m.List fs = .ok ns → ∀ r ∈ ns,
      r ++ hclExt ∈ fs.entries.map Prod.fst ∧ (r ++ hclExt).head? ≠ some '_') := by
  have hlist := List_eq m fs hr hdir hinv (fun e he => (hnames e he).1)
  have hback : ∀ e ∈ fs.entries.map Prod.fst, e.head? ≠ some '_' → hasSuffix e hclExt = true →
      m.nameFromPath e ++ hclExt = e := by
    intro e he h1 h2
    exact nameFromPath_of_isContextEntry m e (hnames e he).2 (by simp [isContextEntry, h1, h2])
  refine ⟨hlist, hback, ?_⟩
  intro ns hns r hrmem
  rw [hlist] at hns
  cases hns
  simp only [listed, List.mem_map, List.mem_filter] at hrmem
  obtain ⟨e, ⟨he, hkeep⟩, rfl⟩ := hrmem
  have he := List.mem_map.2 he
  have hk := hkeep
  simp only [isContextEntry, Bool.and_eq_true, decide_eq_true_eq] at hk
  rw [hback e he hk.1 hk.2]
  exact ⟨he, hk.1⟩

/-- C6 at work: the directory with `_x.hcl`, `a.hcl`, `notes.txt`,
`_default.hcl` and `b.c.hcl` lists as `a`, `b.c`. -/
theorem List_is_filter_then_map_witness :
    plainDir linkStore.dir ∧ linkStore.List mixedDir = .ok ["a".toList, "b.c".toList] :=
  ⟨by decide,
   (List_is_filter_then_map linkStore mixedDir (by decide) (by decide) (by decide)
      (by decide)).1⟩

/-- C4: for every store state and valid name `n`, `Delete(n)` returns
success, and after it the context file of `n` is absent, `n` is not in
`List()` and `Load(n)` is not-found; `Default()` returns the empty name if
the default before the call was `n` and the previous value otherwise; every
entry of the directory other than `n.hcl` and the indicator is as it was, so
every other context loads as before. -/
theorem Delete_clears_default_exactly_when_default (m : Storage) (n : Str) (fs : FS)
    (hs : StoreState m fs) (hn : validName n) :
    (m.Delete n fs).1 = none ∧
    lookupEntry (n ++ hclExt) (m.Delete n fs).2.entries = none ∧
    (∃ ns, m.List (m.Delete n fs).2 = .ok ns ∧ n ∉ ns) ∧
    (∀ (Config : Type) (codec : Codec Config),
      m.Load codec n (m.Delete n fs).2 = .error .notExist) ∧
    m.Default (m.Delete n fs).2 = (if m.Default fs = .ok n then .ok [] else m.Default fs) ∧
    (∀ e, e ≠ n ++ hclExt → e ≠ defaultEntry →
      lookupEntry e (m.Delete n fs).2.entries = lookupEntry e fs.entries) ∧
    (∀ (Config : Type) (codec : Codec Config) (k : Str), validName k → k ≠ n →
      m.Load codec k (m.Delete n fs).2 = m.Load codec k fs) := by
  have hr := hs.1
  have hnd := hcl_ne_default hn
  rw [Delete_eq m n fs hr hn]
  have hlook : ∀ e, e ≠ defaultEntry →
      lookupEntry e (entriesAfterDelete m n fs.entries) =
        lookupEntry e (eraseEntry (n ++ hclExt) fs.entries) := by
    intro e he
    unfold entriesAfterDelete
    by_cases h0 : indicatorName m fs.entries = n
    · simp [h0, lookup_erase_ne he]
    · simp [h0]
  have hgone : lookupEntry (n ++ hclExt) (entriesAfterDelete m n fs.entries) = none := by
    rw [hlook _ hnd, lookup_erase_same]
  have hother : ∀ e, e ≠ n ++ hclExt → e ≠ defaultEntry →
      lookupEntry e (entriesAfterDelete m n fs.entries) = lookupEntry e fs.entries := by
    intro e h1 h2
    rw [hlook e h2, lookup_erase_ne h1]
  have hsub : ∀ p ∈ entriesAfterDelete m n fs.entries, p ∈ fs.entries := by
    intro p hp
    unfold entriesAfterDelete at hp
    by_cases h0 : indicatorName m fs.entries = n
    · simp only [h0, if_true] at hp
      exact (mem_erase.1 (mem_erase.1 hp).1).1
    · simp only [h0, if_false] at hp
      exact (mem_erase.1 hp).1
  have hvalid : ∀ e ∈ (entriesAfterDelete m n fs.entries).map Prod.fst, validEntry e := by
    intro e he
    obtain ⟨p, hp, rfl⟩ := List.mem_map.1 he
    exact hs.2.2.2.1 p (hsub p hp)
  have hinv : fs.dirExists = false → entriesAfterDelete m n fs.entries = [] := by
    intro hd
    simp [entriesAfterDelete, hs.2.1 hd, eraseEntry]
  refine ⟨rfl, hgone, ?_, ?_, ?_, hother, ?_⟩
  · refine ⟨_, List_cases m _ (by simpa using hr) hinv (fun e he => (hvalid e he).1), ?_⟩
    intro hmem
    have hmem : n ∈ listed m ((entriesAfterDelete m n fs.entries).map Prod.fst) := by
      cases ho : opensAsWritten m.dir with
      | false => simp [ho] at hmem
      | true => simpa [ho] using hmem
    simp only [listed, List.mem_map, List.mem_filter] at hmem
    obtain ⟨e, ⟨he, hkeep⟩, hname⟩ := hmem
    have he := List.mem_map.2 he
    have := nameFromPath_of_isContextEntry m e (hvalid e he).2.1 hkeep
    rw [hname] at this
    rw [← this] at he
    exact ((lookup_eq_none_iff _ _).1 hgone) he
  · intro Config codec
    rw [Load_eq codec m n _ (by simpa using hr) hn.2.2 (by simp [hgone])]
    simp [hgone]
  · rw [Default_eq m _ (by simpa using hr), Default_eq m fs hr]
    unfold entriesAfterDelete
    by_cases h0 : indicatorName m fs.entries = n
    · simp [h0, indicatorName_erase_default]
    · simp [h0, indicatorName_erase_ne m hnd]
  · intro Config codec k hk hkn
    have hkd := hcl_ne_default hk
    have hne : k ++ hclExt ≠ n ++ hclExt := fun h => hkn (hcl_inj.1 h)
    rw [Load_eq codec m k _ (by simpa using hr) hk.2.2
          (by simp only [hother _ hne hkd]; exact hs.not_link hkd),
      Load_eq codec m k fs hr hk.2.2 (hs.not_link hkd)]
    simp only [hother _ hne hkd]

/-- C4 at work: deleting the default `a` of the two-context store clears
the default and keeps `b`. -/
theorem Delete_clears_default_exactly_when_default_witness :
    StoreState linkStore abLinkA ∧ validName "a".toList ∧
    linkStore.Default (linkStore.Delete "a".toList abLinkA).2 = .ok [] ∧
    linkStore.Load bytesCodec "b".toList (linkStore.Delete "a".toList abLinkA).2
      = .ok "x=2".toList :=
  ⟨by decide, by decide,
   (Delete_clears_default_exactly_when_default linkStore "a".toList abLinkA
      (by decide) (by decide)).2.2.2.2.1,
   by decide⟩

/-- C5: for a store whose directory path is not empty and never leaves with
`..` a directory it entered by name (every non-empty clean path): starting
from an empty or non-existent base directory, after any sequence of
successful `Set` calls with pairwise distinct valid names and nothing else,
`List()` returns exactly those names as a set, without duplicates: every name
set is listed, nothing else is, `_default` in particular is not, and every
listed name has its context file. -/
theorem List_after_Sets_is_exactly_the_names {Config : Type} (codec : Codec Config)
    (m : Storage) (calls : List (Str × Config)) (dirExists : Bool) (sl : SymlinkSupport)
    (fs' : FS) (hdir : plainDir m.dir)
    (hvalid : ∀ p ∈ calls, validName p.1) (hdistinct : (calls.map Prod.fst).Nodup)
    (hrun : runSets codec m calls ⟨m.dir, dirExists, sl, []⟩ = some fs') :
    ∃ ns, m.List fs' = .ok ns ∧ ns.Perm (calls.map Prod.fst) ∧ ns.Nodup ∧
      (∀ r, r ∈ ns ↔ r ∈ calls.map Prod.fst) ∧ "_default".toList ∉ ns ∧
      (∀ r ∈ ns, ∃ data, lookupEntry (r ++ hclExt) fs'.entries = some (.file data)) := by
  have hs0 : StoreState m ⟨m.dir, dirExists, sl, []⟩ :=
    ⟨rfl, fun _ => rfl, List.nodup_nil, by simp, by simp⟩
  obtain ⟨hs', hk'⟩ := runSets_contexts codec m calls ⟨m.dir, dirExists, sl, []⟩ fs' [] hs0
    rfl hvalid (by simpa using hdistinct) hrun
  simp only [List.nil_append] at hk'
  have hnames : ∀ n ∈ calls.map Prod.fst, validName n := by
    intro n hn
    obtain ⟨p, hp, rfl⟩ := List.mem_map.1 hn
    exact hvalid p hp
  have hlist : m.List fs' = .ok (calls.map Prod.fst) := by
    rw [List_eq m fs' hs'.1 hdir hs'.2.1
      (by
        intro e he
        obtain ⟨p, hp, rfl⟩ := List.mem_map.1 he
        exact (hs'.2.2.2.1 p hp).1),
      ← listed_erase_default, hk', listed_hcl m _ hnames]
  refine ⟨_, hlist, List.Perm.refl _, hdistinct, fun _ => Iff.rfl, ?_, ?_⟩
  · intro hmem
    exact absurd (hnames _ hmem) (by decide)
  · intro r hr
    have hn := hnames r hr
    have hnd := hcl_ne_default hn
    have hkey : r ++ hclExt ∈ (eraseEntry defaultEntry fs'.entries).map Prod.fst := by
      rw [hk']
      exact List.mem_map_of_mem _ hr
    have hsome : lookupEntry (r ++ hclExt) fs'.entries ≠ none := by
      rw [← lookup_erase_ne hnd]
      intro hnone
      exact ((lookup_eq_none_iff _ _).1 hnone) hkey
    cases hv : lookupEntry (r ++ hclExt) fs'.entries with
    | none => exact absurd hv hsome
    | some v =>
      cases v with
      | file d => exact ⟨d, rfl⟩
      | link t => exact absurd hv (hs'.not_link hnd t)

/-- C5 at work: three `Set` calls on the directory that does not exist yet
succeed, and the names listed afterwards are the three names. -/
theorem List_after_Sets_is_exactly_the_names_witness :
    plainDir plainStore.dir ∧
    runSets bytesCodec plainStore threeSets noDir = some afterThreeSets ∧
    ∃ ns, plainStore.List afterThreeSets = .ok ns ∧ ns.Perm (threeSets.map Prod.fst) ∧
      ns.Nodup ∧ (∀ r, r ∈ ns ↔ r ∈ threeSets.map Prod.fst) ∧ "_default".toList ∉ ns ∧
      (∀ r ∈ ns, ∃ data, lookupEntry (r ++ hclExt) afterThreeSets.entries = some (.file data)) :=
  ⟨by decide, by decide,
   List_after_Sets_is_exactly_the_names bytesCodec plainStore threeSets false .works
     afterThreeSets (by decide) (by decide) (by decide) (by decide)⟩

/-! ## Where the code departs from the claims

`SetDefault` has two routes.  The symlink route (`createSymlink`) removes the
old indicator before it creates the new one.  The plain-file route writes to
`_default.hcl` without removing anything, and a write to a path occupied by a
symbolic link lands in the link's target.  A store built with `WithNoSymlink`
over a directory whose indicator is a link left by an earlier store therefore
overwrites (or creates) the context file the link points to and leaves the
link, and with it the default, as it was. -/

/-- C8 on the code: in a store built with `WithNoSymlink` over a directory
whose indicator is a symbolic link to context `a`, `SetDefault("b")` returns
success, yet the indicator is still that link, not a regular file holding
`b`, and `Default()` still returns `a`. -/
theorem SetDefault_plain_keeps_old_link :
    StoreState plainStore abLinkA ∧ validName "b".toList ∧
    (plainStore.SetDefault "b".toList abLinkA).1 = none ∧
    lookupEntry defaultEntry (plainStore.SetDefault "b".toList abLinkA).2.entries
      = some (.link "/ctx/a.hcl".toList) ∧
    lookupEntry defaultEntry (plainStore.SetDefault "b".toList abLinkA).2.entries
      ≠ some (.file "b".toList) ∧
    plainStore.Default (plainStore.SetDefault "b".toList abLinkA).2 = .ok "a".toList := by
  decide

/-- C10 on the code: with `WithNoSymlink`, `SetDefault("b")` over an indicator
that links to context `a` replaces the contents of `a.hcl` by the bytes `b`;
over an indicator that links to the missing `a.hcl` it creates that context
file.  Both calls return success. -/
theorem SetDefault_plain_writes_context_file :
    StoreState plainStore abLinkA ∧ StoreState plainStore danglingA ∧
    (plainStore.SetDefault "b".toList abLinkA).1 = none ∧
    lookupEntry "a.hcl".toList abLinkA.entries = some (.file "x=1".toList) ∧
    lookupEntry "a.hcl".toList (plainStore.SetDefault "b".toList abLinkA).2.entries
      = some (.file "b".toList) ∧
    (plainStore.SetDefault "b".toList danglingA).1 = none ∧
    lookupEntry "a.hcl".toList danglingA.entries = none ∧
    lookupEntry "a.hcl".toList (plainStore.SetDefault "b".toList danglingA).2.entries
      = some (.file "b".toList) := by
  decide

/-- C3 on the code: with `WithNoSymlink` and the default a symbolic link to
context `a`, `Rename("a", "c")` returns success, but afterwards `Default()`
still returns `a` instead of `c`, and `Load("a")` is not not-found: it finds a
file `a.hcl` holding the bytes `c`. -/
theorem Rename_plain_leaves_default_on_old_name :
    StoreState plainStore abLinkA ∧ validName "a".toList ∧ validName "c".toList ∧
    (plainStore.Rename "a".toList "c".toList abLinkA).1 = none ∧
    plainStore.Default abLinkA = .ok "a".toList ∧
    plainStore.Default (plainStore.Rename "a".toList "c".toList abLinkA).2 = .ok "a".toList ∧
    plainStore.Load bytesCodec "a".toList (plainStore.Rename "a".toList "c".toList abLinkA).2
      = .ok "c".toList := by
  decide

/-- C9 on the code: `Rename("a", "a")` on a store where context `a` exists
returns an error and the document is lost: `Load("a")` yields `x=1` before the
call and not-found after it, and the default, which was `a`, is cleared. -/
theorem Rename_onto_itself_loses_the_context :
    StoreState linkStore abLinkA ∧ validName "a".toList ∧
    linkStore.Load bytesCodec "a".toList abLinkA = .ok "x=1".toList ∧
    (linkStore.Rename "a".toList "a".toList abLinkA).1 = some .notExist ∧
    linkStore.Load bytesCodec "a".toList (linkStore.Rename "a".toList "a".toList abLinkA).2
      = .error .notExist ∧
    linkStore.Default (linkStore.Rename "a".toList "a".toList abLinkA).2 = .ok [] := by
  decide

end Clicontext
